import Mathlib

/-! n2m: the scan-command classifier (`scantype.go`) and the merge and sort of
`generateMarkdown` (`main.go`)

A shallow embedding of `determineScanType`, `parseScanFlags`, `getPortRange`,
`hasStandaloneFlag` and their helpers, and of the port map and the sort loop of
`generateMarkdown`.

A Go string is modelled as a list of characters, one list element per element of
the Go string.  Every character test made by the source (`isLetter`, the regexp
classes `\s` and `\d`, the literal flag texts) is a test on an ASCII value, so the
model does not depend on how non-ASCII text is encoded.

The `map[rune]bool` built by `parseScanFlags` is modelled as the list of keys that
were set to `true`; a lookup `scanFlags[x]` is `hasFlag scanFlags x`.

The three regular expressions of the source are modelled by hand-written matchers
(`flagThenDashAt`, `topPortsAt`, `portSpecAt`) that are tried at every start
position from left to right, which is the leftmost-match rule of Go's `regexp`.
-/

namespace N2M

/-- A Go `string`. -/
abbrev Str := List Char

/-! ## Helpers from the Go standard library -/

/-- Model of `strings.HasPrefix(s, pre)`. -/
def hasPrefix (s pre : Str) : Bool := pre.isPrefixOf s

/-- Model of `strings.HasSuffix(s, suf)`. -/
def hasSuffix (s suf : Str) : Bool := suf.reverse.isPrefixOf s.reverse

/-- Model of `strings.Contains(s, substr)`: `substr` starts at some position of `s`. -/
def strContains : Str → Str → Bool
  | [], substr => hasPrefix [] substr
  | c :: cs, substr => hasPrefix (c :: cs) substr || strContains cs substr

/-- Model of `strings.Join(parts, sep)`. -/
def strJoin : List Str → Str → Str
  | [], _ => []
  | [a], _ => a
  | a :: b :: rest, sep => a ++ sep ++ strJoin (b :: rest) sep

/-- The regexp class `\s` of Go (RE2): `[\t\n\f\r ]`. -/
def isSpace (c : Char) : Bool :=
  c == '\t' || c == '\n' || c == '\x0c' || c == '\r' || c == ' '

/-- The regexp class `\d` of Go (RE2): `[0-9]`. -/
def isDigit (c : Char) : Bool := decide ('0' ≤ c) && decide (c ≤ '9')

/-! ## `scantype.go` -/

/-- Source `isLetter`: `(b >= 'A' && b <= 'Z') || (b >= 'a' && b <= 'z')`. -/
def isLetter (b : Char) : Bool :=
  (decide ('A' ≤ b) && decide (b ≤ 'Z')) || (decide ('a' ≤ b) && decide (b ≤ 'z'))

/-- Source `contains`: membership of a string in a slice of strings. -/
def contains : List Str → Str → Bool
  | [], _ => false
  | s :: rest, item => if s = item then true else contains rest item

/-- A lookup `scanFlags[x]` in the flag map. -/
def hasFlag (scanFlags : List Char) (x : Char) : Bool := scanFlags.elem x

/-- One iteration of the outer loop of `parseScanFlags` at index `i`: when
`command[i:i+2] == "-s"`, the inner loop sets every letter `command[j]`,
`j = i+2, i+3, …`, up to the first non-letter or the end of the string. -/
def parseScanFlagsStep (command : Str) (flags : List Char) (i : Nat) : List Char :=
  if (command.drop i).take 2 = "-s".toList then
    flags ++ (command.drop (i + 2)).takeWhile isLetter
  else flags

/-- Source `parseScanFlags`: `for i := 0; i < len(command)-2; i++ { … }`.
`len(command)-2` is negative for strings shorter than two characters, where the
loop body never runs; the truncated subtraction gives the same range. -/
def parseScanFlags (command : Str) : List Char :=
  (List.range (command.length - 2)).foldl (parseScanFlagsStep command) []

/-- The regexp `QuoteMeta(flag) + "\s+-"` matched at the start of `t`: the literal
flag, one or more whitespace characters, then `-`. -/
def flagThenDashAt (flag t : Str) : Bool :=
  hasPrefix t flag &&
    (decide (0 < ((t.drop flag.length).takeWhile isSpace).length) &&
      ((t.drop flag.length).dropWhile isSpace).head? == some '-')

/-- The call `re.MatchString(command)` for the regexp of `hasStandaloneFlag`. -/
def matchFlagThenDash (flag : Str) : Str → Bool
  | [] => flagThenDashAt flag []
  | c :: cs => flagThenDashAt flag (c :: cs) || matchFlagThenDash flag cs

/-- Source `hasStandaloneFlag`. -/
def hasStandaloneFlag (command flag : Str) : Bool :=
  if strContains command (flag ++ " ".toList) || hasSuffix command flag then true
  else matchFlagThenDash flag command

/-- The regexp `--top-ports\s+(\d+)` matched at the start of `t`; the result is the
text of capture group 1 (the longest run of digits). -/
def topPortsAt (t : Str) : Option Str :=
  if hasPrefix t "--top-ports".toList then
    let r := t.drop 11
    let d := (r.dropWhile isSpace).takeWhile isDigit
    if 0 < (r.takeWhile isSpace).length ∧ d ≠ [] then some d else none
  else none

/-- The call `re.FindStringSubmatch(command)` for `--top-ports\s+(\d+)`: the capture
of the leftmost match, `none` when the regexp matches nowhere. -/
def findTopPorts : Str → Option Str
  | [] => topPortsAt []
  | c :: cs =>
    match topPortsAt (c :: cs) with
    | some d => some d
    | none => findTopPorts cs

/-- The regexp `-p\s*([^\s]+)` matched at the start of `t`; the result is the text
of capture group 1 (the longest run of non-whitespace characters). -/
def portSpecAt (t : Str) : Option Str :=
  if hasPrefix t "-p".toList then
    let spec := ((t.drop 2).dropWhile isSpace).takeWhile (fun c => !isSpace c)
    if spec ≠ [] then some spec else none
  else none

/-- The call `re.FindStringSubmatch(command)` for `-p\s*([^\s]+)`. -/
def findPortSpec : Str → Option Str
  | [] => portSpecAt []
  | c :: cs =>
    match portSpecAt (c :: cs) with
    | some s => some s
    | none => findPortSpec cs

/-- Source `getPortRange`. -/
def getPortRange (command : Str) : Str :=
  if strContains command "-p-".toList then "All Ports".toList
  else
    match (if strContains command "--top-ports".toList then findTopPorts command
           else none) with
    | some n => "Top ".toList ++ n
    | none =>
      if hasStandaloneFlag command "-F".toList then "Top 100".toList
      else if strContains command " -p".toList then
        match findPortSpec command with
        | some ports =>
          if strContains ports "-".toList || strContains ports ",".toList then
            "Custom Ports".toList
          else "Port ".toList ++ ports
        | none => "Custom Ports".toList
      else "Top 1000".toList

/-- Lines 19-22 of `determineScanType`: is any TCP technique letter set. -/
def hasTCPTechnique (scanFlags : List Char) : Bool :=
  hasFlag scanFlags 'T' || hasFlag scanFlags 'S' || hasFlag scanFlags 'A' ||
  hasFlag scanFlags 'N' || hasFlag scanFlags 'F' || hasFlag scanFlags 'X' ||
  hasFlag scanFlags 'W' || hasFlag scanFlags 'M'

/-- Lines 14-49 of `determineScanType`: the slice `protocols`. -/
def protocols (scanFlags : List Char) : List Str :=
  let p0 : List Str := []
  let p1 :=
    if hasFlag scanFlags 'U' then
      if hasTCPTechnique scanFlags then (p0 ++ ["UDP".toList]) ++ ["TCP".toList]
      else p0 ++ ["UDP".toList]
    else if hasTCPTechnique scanFlags then p0 ++ ["TCP".toList]
    else p0
  let p2 := if hasFlag scanFlags 'Y' then p1 ++ ["SCTP".toList] else p1
  let p3 := if hasFlag scanFlags 'Z' then p2 ++ ["SCTP Cookie Echo".toList] else p2
  let p4 := if hasFlag scanFlags 'O' then p3 ++ ["IP Protocol".toList] else p3
  if p4.length = 0 ∧ (hasFlag scanFlags 'V' || hasFlag scanFlags 'C') = true then
    p4 ++ ["TCP".toList]
  else p4

/-- Lines 54-79 of `determineScanType`: the slice `techniques`. -/
def techniques (scanFlags : List Char) : List Str :=
  let t0 : List Str := []
  let t1 := if hasFlag scanFlags 'S' then t0 ++ ["SYN".toList] else t0
  let t2 := if hasFlag scanFlags 'T' then t1 ++ ["Connect".toList] else t1
  let t3 := if hasFlag scanFlags 'A' then t2 ++ ["ACK".toList] else t2
  let t4 := if hasFlag scanFlags 'N' then t3 ++ ["Null".toList] else t3
  let t5 := if hasFlag scanFlags 'F' then t4 ++ ["FIN".toList] else t4
  let t6 := if hasFlag scanFlags 'X' then t5 ++ ["Xmas".toList] else t5
  let t7 := if hasFlag scanFlags 'W' then t6 ++ ["Window".toList] else t6
  if hasFlag scanFlags 'M' then t7 ++ ["Maimon".toList] else t7

/-- Lines 81-101 of `determineScanType`: the slice `features`. -/
def features (command : Str) (scanFlags : List Char) : List Str :=
  let f0 : List Str := []
  let f1 := if hasFlag scanFlags 'C' then f0 ++ ["Script Scan".toList] else f0
  let f2 := if hasFlag scanFlags 'V' then f1 ++ ["Version Detection".toList] else f1
  let f3 :=
    if hasStandaloneFlag command "-O".toList || hasStandaloneFlag command "-A".toList then
      f2 ++ ["OS Detection".toList]
    else f2
  if hasStandaloneFlag command "-A".toList then
    let f4 := if !hasFlag scanFlags 'C' then f3 ++ ["Script Scan".toList] else f3
    if !hasFlag scanFlags 'V' then f4 ++ ["Version Detection".toList] else f4
  else f3

/-- The loop of lines 110-117: the rendering of each protocol. -/
def protocolParts (techniques : List Str) : List Str → List Str
  | [] => []
  | protocol :: rest =>
    (if protocol = "TCP".toList ∧ 0 < techniques.length then
      "TCP (".toList ++ strJoin techniques "/".toList ++ ")".toList
    else protocol) :: protocolParts techniques rest

/-- Lines 104-127 of `determineScanType`: the first element appended to `result`. -/
def firstSegment (protocols techniques : List Str) (portRange : Str) : Str :=
  if 0 < protocols.length then
    strJoin (protocolParts techniques protocols) " + ".toList ++ " ".toList ++ portRange
  else if 0 < techniques.length then
    "TCP (".toList ++ strJoin techniques "/".toList ++ ") ".toList ++ portRange
  else "TCP ".toList ++ portRange

/-- Lines 129-142 of `determineScanType`: what is appended to `result` after the
first segment. -/
def finalFeatures (features : List Str) : List Str :=
  if contains features "OS Detection".toList && contains features "Version Detection".toList then
    features.filter (fun f => decide (f ≠ "OS Detection".toList ∧ f ≠ "Version Detection".toList))
      ++ ["OS + Version Detection".toList]
  else features

/-- Source `determineScanType`. -/
def determineScanType (command : Str) : Str :=
  let scanFlags := parseScanFlags command
  let protocols := protocols scanFlags
  let portRange := getPortRange command
  let techniques := techniques scanFlags
  let features := features command scanFlags
  let result : List Str := [firstSegment protocols techniques portRange]
  let result := result ++ finalFeatures features
  strJoin result ", ".toList

/-! ## The label as the specification words it (§4.3 Step D) -/

/-- Step D, rendering of one protocol: `TCP` with a non-empty technique list is
written `TCP (<t1>/<t2>/…)`, every other protocol is written bare. -/
def specRenderProtocol (techs : List Str) (p : Str) : Str :=
  if p = "TCP".toList ∧ techs ≠ [] then
    "TCP (".toList ++ "/".toList.intercalate techs ++ ")".toList
  else p

/-- Step D, the first segment: the protocol renderings joined with `" + "`, one
space, and the port-range label. -/
def specFirstSegment (command : Str) : Str :=
  " + ".toList.intercalate
      ((protocols (parseScanFlags command)).map
        (specRenderProtocol (techniques (parseScanFlags command))))
    ++ " ".toList ++ getPortRange command

/-- Step D, the final label: the first segment followed by each final feature, each
preceded by `", "`. -/
def specLabel (command : Str) : Str :=
  specFirstSegment command ++
    ((finalFeatures (features command (parseScanFlags command))).map
      (fun f => ", ".toList ++ f)).flatten

/-! ## A scanner for three-character texts

`scan a b q w` reads `w` from state `q` and reaches state `3` once the text
`a`, `b`, space has been read; it is used to show that a text such as `IP ` or `OS `
does not occur in a label. -/

/-- One step of the scanner for the text `a`, `b`, space. -/
def scanStep (a b : Char) (q : Nat) (c : Char) : Nat :=
  if q = 3 then 3
  else if q = 2 ∧ c = ' ' then 3
  else if q = 1 ∧ c = b then 2
  else if c = a then 1
  else 0

/-- The scanner run over a string. -/
def scan (a b : Char) (q : Nat) (w : Str) : Nat := w.foldl (scanStep a b) q

/-- A piece that, read after a text not ending in `a` `b`, does not complete the
text `a` `b` space and does not end in `a` `b`. -/
def calm (a b : Char) (p : Str) : Bool :=
  decide (scan a b 0 p ≤ 1) && decide (scan a b 1 p ≤ 1)

/-- A piece that, read after any text not containing `a` `b` space, does not
complete it and does not end in `a` `b`. -/
def settle (a b : Char) (p : Str) : Bool :=
  calm a b p && decide (scan a b 2 p ≤ 1)

/-- The fixed texts, other than protocol, technique and feature names, that
`determineScanType` and `getPortRange` put into a label before the variable part of
the port range. -/
def fixedPieces : List Str :=
  [" + ".toList, " ".toList, "TCP (".toList, "/".toList, ")".toList, ") ".toList,
   "TCP ".toList, "All Ports".toList, "Top ".toList, "Top 100".toList,
   "Custom Ports".toList, "Port ".toList, "Top 1000".toList, []]

/-! ## Protocols and techniques as the specification words them (§4.3 Steps A, B) -/

/-- Step A: `UDP` iff `U`, `TCP` iff a TCP technique letter, `SCTP` iff `Y`,
`SCTP Cookie Echo` iff `Z`, `IP Protocol` iff `O`, in this order; when none applies
and `V` or `C` is present, the single entry `TCP`. -/
def specProtocols (scanFlags : List Char) : List Str :=
  let listed : List Str :=
    (if hasFlag scanFlags 'U' then ["UDP".toList] else []) ++
    (if ['T', 'S', 'A', 'N', 'F', 'X', 'W', 'M'].any (hasFlag scanFlags) then
      ["TCP".toList] else []) ++
    (if hasFlag scanFlags 'Y' then ["SCTP".toList] else []) ++
    (if hasFlag scanFlags 'Z' then ["SCTP Cookie Echo".toList] else []) ++
    (if hasFlag scanFlags 'O' then ["IP Protocol".toList] else [])
  if listed = [] ∧ (hasFlag scanFlags 'V' = true ∨ hasFlag scanFlags 'C' = true) then
    ["TCP".toList]
  else listed

/-- Step B: the technique letters with their names, in policy order. -/
def techniqueTable : List (Char × Str) :=
  [('S', "SYN".toList), ('T', "Connect".toList), ('A', "ACK".toList), ('N', "Null".toList),
   ('F', "FIN".toList), ('X', "Xmas".toList), ('W', "Window".toList),
   ('M', "Maimon".toList)]

/-- Step B: the names of the table whose letter is present, in table order. -/
def specTechniques (scanFlags : List Char) : List Str :=
  (techniqueTable.filter (fun e => hasFlag scanFlags e.1)).map (fun e => e.2)

/-! ## The classifier with every slice and index operation checked

`none` stands for a run that does not return: a run-time panic of a slice or index
expression out of range, or a loop that is still running when its fuel is used up. -/

/-- The Go slice expression `s[lo:hi]`, which panics unless `lo ≤ hi ≤ len(s)`. -/
def sliceChecked (s : Str) (lo hi : Nat) : Option Str :=
  if lo ≤ hi ∧ hi ≤ s.length then some ((s.drop lo).take (hi - lo)) else none

/-- The Go index expression `s[j]`, which panics unless `j < len(s)`. -/
def indexChecked {α : Type} (s : List α) (j : Nat) : Option α := s[j]?

/-- The inner loop of `parseScanFlags`,
`for j < len(command) && isLetter(command[j]) { flags[rune(command[j])] = true; j++ }`,
with at most `fuel` evaluations of the loop condition. -/
def letterLoopChecked (command : Str) : Nat → Nat → List Char → Option (List Char)
  | 0, _, _ => none
  | fuel + 1, j, flags =>
    if j < command.length then
      match indexChecked command j with
      | none => none
      | some b =>
        if isLetter b then letterLoopChecked command fuel (j + 1) (flags ++ [b])
        else some flags
    else some flags

/-- The body of the outer loop of `parseScanFlags` at index `i`. -/
def parseScanFlagsStepChecked (command : Str) (flags : List Char) (i : Nat) :
    Option (List Char) :=
  match sliceChecked command i (i + 2) with
  | none => none
  | some s =>
    if s = "-s".toList then letterLoopChecked command (command.length + 1) (i + 2) flags
    else some flags

/-- Source `parseScanFlags` with checked slice and index operations. -/
def parseScanFlagsChecked (command : Str) : Option (List Char) :=
  (List.range (command.length - 2)).foldlM (parseScanFlagsStepChecked command) []

/-- The text of the whole match of `--top-ports\s+(\d+)` at the start of `t`. -/
def topPortsWholeAt (t : Str) : Str :=
  "--top-ports".toList ++ (t.drop 11).takeWhile isSpace ++
    ((t.drop 11).dropWhile isSpace).takeWhile isDigit

/-- The slice returned by `re.FindStringSubmatch(command)` for `--top-ports\s+(\d+)`:
nil without a match, else the whole match and capture group 1. -/
def findTopPortsSubmatch : Str → List Str
  | [] =>
    match topPortsAt [] with
    | some d => [topPortsWholeAt [], d]
    | none => []
  | c :: cs =>
    match topPortsAt (c :: cs) with
    | some d => [topPortsWholeAt (c :: cs), d]
    | none => findTopPortsSubmatch cs

/-- The text of the whole match of `-p\s*([^\s]+)` at the start of `t`. -/
def portSpecWholeAt (t : Str) : Str :=
  "-p".toList ++ (t.drop 2).takeWhile isSpace ++
    ((t.drop 2).dropWhile isSpace).takeWhile (fun c => !isSpace c)

/-- The slice returned by `re.FindStringSubmatch(command)` for `-p\s*([^\s]+)`. -/
def findPortSpecSubmatch : Str → List Str
  | [] =>
    match portSpecAt [] with
    | some s => [portSpecWholeAt [], s]
    | none => []
  | c :: cs =>
    match portSpecAt (c :: cs) with
    | some s => [portSpecWholeAt (c :: cs), s]
    | none => findPortSpecSubmatch cs

/-- Lines 171-176 of `getPortRange`: `none` is a panic of `match[1]`, `some none` is
falling through to the next rule, `some (some r)` is `return r`. -/
def topPortsRuleChecked (command : Str) : Option (Option Str) :=
  if strContains command "--top-ports".toList then
    if 1 < (findTopPortsSubmatch command).length then
      match indexChecked (findTopPortsSubmatch command) 1 with
      | none => none
      | some g => some (some ("Top ".toList ++ g))
    else some none
  else some none

/-- Lines 185-196 of `getPortRange`, the body of `if strings.Contains(command, " -p")`. -/
def portSpecRuleChecked (command : Str) : Option Str :=
  if 1 < (findPortSpecSubmatch command).length then
    match indexChecked (findPortSpecSubmatch command) 1 with
    | none => none
    | some ports =>
      if strContains ports "-".toList || strContains ports ",".toList then
        some "Custom Ports".toList
      else some ("Port ".toList ++ ports)
  else some "Custom Ports".toList

/-- Source `getPortRange` with the index operation `match[1]` checked. -/
def getPortRangeChecked (command : Str) : Option Str :=
  if strContains command "-p-".toList then some "All Ports".toList
  else
    match topPortsRuleChecked command with
    | none => none
    | some (some r) => some r
    | some none =>
      if hasStandaloneFlag command "-F".toList then some "Top 100".toList
      else if strContains command " -p".toList then portSpecRuleChecked command
      else some "Top 1000".toList

/-- Source `determineScanType` run on the checked `parseScanFlags` and
`getPortRange`. -/
def determineScanTypeChecked (command : Str) : Option Str :=
  match parseScanFlagsChecked command with
  | none => none
  | some scanFlags =>
    match getPortRangeChecked command with
    | none => none
    | some portRange =>
      some (strJoin
        ([firstSegment (protocols scanFlags) (techniques scanFlags) portRange] ++
          finalFeatures (features command scanFlags)) ", ".toList)

/-! ## `main.go`: the port records, the merge and the sort of `generateMarkdown` -/

/-- Source `Port`. -/
structure Port where
  Number : Str
  Protocol : Str
  State : Str
  Service : Str
  Version : Str
deriving DecidableEq

/-- Source `NmapScan`; the field `Type` of the source is `ScanType` here. -/
structure NmapScan where
  ScanType : Str
  Command : Str
  Output : Str
  Ports : List Port

/-- The map key `fmt.Sprintf("%s/%s", port.Number, port.Protocol)`. -/
def portKey (port : Port) : Str := port.Number ++ "/".toList ++ port.Protocol

/-- A Go `map[string]Port`, as the list of its entries; no key occurs twice. -/
abbrev PortMap := List (Str × Port)

/-- The lookup `existing, exists := portMap[key]`. -/
def mapGet : PortMap → Str → Option Port
  | [], _ => none
  | (k, v) :: rest, key => if k = key then some v else mapGet rest key

/-- The assignment `portMap[key] = port`. -/
def mapSet : PortMap → Str → Port → PortMap
  | [], key, port => [(key, port)]
  | (k, v) :: rest, key, port =>
    if k = key then (key, port) :: rest else (k, v) :: mapSet rest key port

/-- The body of the inner loop of lines 159-171: one port merged into the map. -/
def mergeStep (portMap : PortMap) (port : Port) : PortMap :=
  match mapGet portMap (portKey port) with
  | some existing =>
    if existing.Version = [] ∧ port.Version ≠ [] then mapSet portMap (portKey port) port
    else portMap
  | none => mapSet portMap (portKey port) port

/-- Lines 158-172 of `generateMarkdown`: all ports of all scans merged into one map. -/
def mergePorts (scans : List NmapScan) : PortMap :=
  scans.foldl (fun portMap scan => scan.Ports.foldl mergeStep portMap) []

/-- The value of a string of decimal digits. -/
def decimalValue (ds : Str) : Nat :=
  ds.foldl (fun acc c => 10 * acc + (c.toNat - '0'.toNat)) 0

/-- The value left in `num` by `num := 0; fmt.Sscanf(s, "%d", &num)` for the strings
`generateMarkdown` scans, which are port numbers captured by `(\d+)`: the leading
digits are read; when there is none, or when their value does not fit the 64-bit
`int`, `Sscanf` reports an error that the source ignores and `num` keeps `0`.
(A leading sign or blank, which `Sscanf` would accept, does not occur in them.) -/
def sscanfInt (s : Str) : Nat :=
  if s.takeWhile isDigit = [] then 0
  else if decimalValue (s.takeWhile isDigit) < 2 ^ 63 then decimalValue (s.takeWhile isDigit)
  else 0

/-- The swap condition of line 189:
`num1 > num2 || (num1 == num2 && ports[j].Protocol > ports[j+1].Protocol)`. -/
def portGreater (a b : Port) : Bool :=
  decide (sscanfInt a.Number > sscanfInt b.Number) ||
    (decide (sscanfInt a.Number = sscanfInt b.Number) && decide (a.Protocol > b.Protocol))

/-- The body of the inner loop of lines 182-192 at index `j`: `ports[j]` and
`ports[j+1]` are swapped when the first is greater.  The loop bounds keep both
indices in range. -/
def swapStep (ports : List Port) (j : Nat) : List Port :=
  match ports[j]?, ports[j + 1]? with
  | some a, some b => if portGreater a b then (ports.set j b).set (j + 1) a else ports
  | _, _ => ports

/-- The inner loop `for j := 0; j < len(ports)-i-1; j++`. -/
def sortPass (ports : List Port) (i : Nat) : List Port :=
  (List.range (ports.length - i - 1)).foldl swapStep ports

/-- Lines 181-193 of `generateMarkdown`: the outer loop
`for i := 0; i < len(ports)-1; i++`. -/
def sortPorts (ports : List Port) : List Port :=
  (List.range (ports.length - 1)).foldl sortPass ports

/-- One bubble pass of at most `m` comparisons, by recursion on the list. -/
def bubble : Nat → List Port → List Port
  | 0, l => l
  | _ + 1, [] => []
  | _ + 1, [a] => [a]
  | m + 1, a :: b :: t =>
    if portGreater a b then b :: bubble m (a :: t) else a :: bubble m (b :: t)

/-- The order of the sorted ports: by number, then by protocol. -/
def portLe (a b : Port) : Prop :=
  sscanfInt a.Number < sscanfInt b.Number ∨
    (sscanfInt a.Number = sscanfInt b.Number ∧ a.Protocol ≤ b.Protocol)

/-- Model of `strings.ToLower` on the protocol names, which are ASCII. -/
def toLower (s : Str) : Str := s.map Char.toLower

/-- Model of `strings.TrimSuffix(s, suf)`. -/
def trimSuffix (s suf : Str) : Str :=
  if hasSuffix s suf then s.take (s.length - suf.length) else s

/-- Lines 197-205 of `generateMarkdown`: the service name shown for a port. -/
def serviceName (port : Port) : Str :=
  if port.Service = [] then "unknown".toList
  else if port.Service = "tcpwrapped".toList then port.Service
  else if strContains port.Service "?".toList then trimSuffix port.Service "?".toList
  else port.Service

/-- Line 207 of `generateMarkdown`: the heading
`fmt.Sprintf("# %s/%s (%s)\n", port.Number, strings.ToLower(port.Protocol), serviceName)`. -/
def portHeading (port : Port) : Str :=
  "# ".toList ++ port.Number ++ "/".toList ++ toLower port.Protocol ++ " (".toList ++
    serviceName port ++ ")\n".toList

/-- The headings in the order in which the loop of lines 196-215 emits them: the
order of the sorted ports. -/
def portHeadings (ports : List Port) : List Str := (sortPorts ports).map portHeading

/-- What one merge step does to the record stored under the key of `port`. -/
def pickRecord : Option Port → Port → Option Port
  | some existing, port =>
    if existing.Version = [] ∧ port.Version ≠ [] then some port else some existing
  | none, port => some port

/-- The record the specification keeps for a (number, protocol) key (§4.4, merge
step): among the records with this key, in input order, the first with a non-empty
version if there is one, and otherwise the first. -/
def chosenRecord (all : List Port) (number protocol : Str) : Option Port :=
  match (all.filter (fun p => p.Number = number ∧ p.Protocol = protocol)).find?
      (fun p => decide (p.Version ≠ [])) with
  | some p => some p
  | none => (all.filter (fun p => p.Number = number ∧ p.Protocol = protocol)).head?

/-- Two ports with the same sort key: equal scanned number and equal protocol. -/
def sameKey (p q : Port) : Bool :=
  decide (sscanfInt p.Number = sscanfInt q.Number) && decide (p.Protocol = q.Protocol)

/-! ## Library helpers: what the string primitives compute -/

theorem hasPrefix_iff (s pre : Str) : hasPrefix s pre = true ↔ pre <+: s := by
  unfold hasPrefix
  exact List.isPrefixOf_iff_prefix

theorem hasSuffix_iff (s suf : Str) : hasSuffix s suf = true ↔ suf <:+ s := by
  unfold hasSuffix
  rw [List.isPrefixOf_iff_prefix, List.reverse_prefix]

theorem strContains_iff (s substr : Str) : strContains s substr = true ↔ substr <:+: s := by
  induction s with
  | nil =>
    simp only [strContains, hasPrefix_iff]
    constructor
    · intro h; exact h.isInfix
    · intro h
      have := List.eq_nil_of_infix_nil h
      subst this
      exact List.nil_prefix
  | cons c cs ih =>
    simp only [strContains, Bool.or_eq_true, hasPrefix_iff, ih, List.infix_cons_iff]

theorem strContains_eq_false_of_not_mem (s substr : Str) (x : Char) (hx : x ∈ substr)
    (hs : x ∉ s) : strContains s substr = false := by
  rw [Bool.eq_false_iff]
  intro h
  exact hs (((strContains_iff s substr).1 h).subset hx)

theorem strJoin_cons_cons (a b : Str) (rest : List Str) (sep : Str) :
    strJoin (a :: b :: rest) sep = a ++ sep ++ strJoin (b :: rest) sep := rfl

theorem strJoin_eq_intercalate (parts : List Str) (sep : Str) :
    strJoin parts sep = sep.intercalate parts := by
  induction parts with
  | nil => rfl
  | cons a rest ih =>
    cases rest with
    | nil => simp [strJoin, List.intercalate]
    | cons b rest =>
      rw [strJoin_cons_cons, ih]
      simp [List.intercalate, List.intersperse]

/-- Joining a non-empty list with `sep` is the head followed by every other element
preceded by `sep`. -/
theorem strJoin_cons (a : Str) (rest : List Str) (sep : Str) :
    strJoin (a :: rest) sep = a ++ (rest.map (fun f => sep ++ f)).flatten := by
  induction rest generalizing a with
  | nil => simp [strJoin]
  | cons b rest ih =>
    rw [strJoin_cons_cons, ih b]
    simp

/-! ## `parseScanFlags` -/

theorem mem_foldl_parseScanFlagsStep (command : Str) (x : Char) (l : List Nat)
    (init : List Char) :
    x ∈ l.foldl (parseScanFlagsStep command) init ↔
      x ∈ init ∨ ∃ i ∈ l, (command.drop i).take 2 = "-s".toList ∧
        x ∈ (command.drop (i + 2)).takeWhile isLetter := by
  induction l generalizing init with
  | nil => simp
  | cons i l ih =>
    rw [List.foldl_cons, ih]
    unfold parseScanFlagsStep
    by_cases h : (command.drop i).take 2 = "-s".toList
    · rw [if_pos h]
      simp only [List.mem_append, List.mem_cons, exists_eq_or_imp]
      constructor
      · rintro ((h1 | h1) | h1)
        · exact Or.inl h1
        · exact Or.inr (Or.inl ⟨h, h1⟩)
        · exact Or.inr (Or.inr h1)
      · rintro (h1 | ⟨_, h1⟩ | h1)
        · exact Or.inl (Or.inl h1)
        · exact Or.inl (Or.inr h1)
        · exact Or.inr h1
    · rw [if_neg h]
      simp only [List.mem_cons, exists_eq_or_imp]
      constructor
      · rintro (h1 | h1)
        · exact Or.inl h1
        · exact Or.inr (Or.inr h1)
      · rintro (h1 | ⟨h2, _⟩ | h1)
        · exact Or.inl h1
        · exact absurd h2 h
        · exact Or.inr h1

/-- Index form of the flag set: `x` is set exactly when some loop index `i` sees
`-s` at `command[i:i+2]` and `x` is among the letters read from `i+2` on. -/
theorem mem_parseScanFlags (command : Str) (x : Char) :
    x ∈ parseScanFlags command ↔
      ∃ i, i < command.length - 2 ∧ (command.drop i).take 2 = "-s".toList ∧
        x ∈ (command.drop (i + 2)).takeWhile isLetter := by
  unfold parseScanFlags
  rw [mem_foldl_parseScanFlagsStep]
  simp only [List.not_mem_nil, false_or, List.mem_range]

theorem take_drop_occurs (command : Str) (i n : Nat) :
    (command.drop i).take n <:+: command :=
  List.IsInfix.trans (List.take_prefix _ _).isInfix (List.drop_suffix _ _).isInfix

theorem parseScanFlags_eq_nil_of_not_contains (command : Str)
    (h : ¬ "-s".toList <:+: command) : parseScanFlags command = [] := by
  rw [List.eq_nil_iff_forall_not_mem]
  intro x hx
  obtain ⟨i, _, h2, _⟩ := (mem_parseScanFlags command x).1 hx
  exact h (h2 ▸ take_drop_occurs command i 2)

theorem hasFlag_iff (scanFlags : List Char) (x : Char) :
    hasFlag scanFlags x = true ↔ x ∈ scanFlags := by
  unfold hasFlag
  exact List.elem_iff

/-! ## Assembly of the label -/

theorem determineScanType_eq (command : Str) :
    determineScanType command =
      firstSegment (protocols (parseScanFlags command)) (techniques (parseScanFlags command))
          (getPortRange command) ++
        ((finalFeatures (features command (parseScanFlags command))).map
          (fun f => ", ".toList ++ f)).flatten := by
  unfold determineScanType
  simp only [List.singleton_append]
  exact strJoin_cons _ _ _

theorem protocolParts_eq_map (techs ps : List Str) :
    protocolParts techs ps = ps.map (specRenderProtocol techs) := by
  induction ps with
  | nil => rfl
  | cons p rest ih =>
    simp only [protocolParts, List.map_cons, ih, specRenderProtocol, strJoin_eq_intercalate,
      List.length_pos, ne_eq]

/-- C1 (the code at the inputs of the claim): with a TCP technique letter in an
`-s` group the code writes the techniques in parentheses right after `TCP`, inside
the first segment, and appends no separate `… Scan` segment; the two commands of the
claim give `TCP (SYN) Top 1000` and `TCP (ACK/Null/FIN/Xmas) Top 500`. -/
theorem determineScanType_technique_examples :
    determineScanType "nmap -sS 192.168.1.1".toList = "TCP (SYN) Top 1000".toList ∧
    determineScanType "nmap -sS 192.168.1.1".toList ≠ "TCP Top 1000, SYN Scan".toList ∧
    determineScanType "nmap -sA -sN -sF -sX --top-ports 500 192.168.1.1".toList
      = "TCP (ACK/Null/FIN/Xmas) Top 500".toList ∧
    determineScanType "nmap -sA -sN -sF -sX --top-ports 500 192.168.1.1".toList
      ≠ "TCP Top 500, ACK/Null/FIN/Xmas Scan".toList := by
  decide

/-- C2: whenever the protocol list is non-empty, the label is the first segment of
Step D (protocols joined by `" + "`, `TCP` carrying the techniques in parentheses
when there are any, then a space and the port range) followed by each final feature
preceded by `", "`. -/
theorem determineScanType_eq_specLabel (command : Str)
    (h : protocols (parseScanFlags command) ≠ []) :
    determineScanType command = specLabel command := by
  rw [determineScanType_eq, specLabel, specFirstSegment, firstSegment,
    if_pos (List.length_pos.2 h), protocolParts_eq_map, strJoin_eq_intercalate]

theorem determineScanType_eq_specLabel_witness :
    protocols (parseScanFlags "nmap -sUT -sCO 10.0.0.1".toList) ≠ [] ∧
    determineScanType "nmap -sUT -sCO 10.0.0.1".toList
      = specLabel "nmap -sUT -sCO 10.0.0.1".toList ∧
    specLabel "nmap -sUT -sCO 10.0.0.1".toList
      = "UDP + TCP (Connect) + IP Protocol Top 1000, Script Scan".toList :=
  ⟨by decide, determineScanType_eq_specLabel _ (by decide), by decide⟩

/-! ## `hasStandaloneFlag` -/

theorem isSpace_dash : isSpace '-' = false := by decide

theorem flagThenDashAt_iff (flag t : Str) :
    flagThenDashAt flag t = true ↔
      ∃ ws : Str, ws ≠ [] ∧ (∀ c ∈ ws, isSpace c = true) ∧ flag ++ ws ++ ['-'] <+: t := by
  unfold flagThenDashAt
  simp only [Bool.and_eq_true, hasPrefix_iff, decide_eq_true_eq, beq_iff_eq]
  constructor
  · rintro ⟨⟨r, rfl⟩, hpos, hhead⟩
    rw [List.drop_left] at hpos hhead
    refine ⟨r.takeWhile isSpace, List.length_pos.1 hpos, fun c hc => List.mem_takeWhile_imp hc, ?_⟩
    cases hd : r.dropWhile isSpace with
    | nil => rw [hd] at hhead; simp at hhead
    | cons a rest =>
      rw [hd] at hhead
      simp only [List.head?_cons, Option.some.injEq] at hhead
      subst hhead
      refine ⟨rest, ?_⟩
      have := List.takeWhile_append_dropWhile isSpace r
      rw [hd] at this
      simp only [List.append_assoc, List.singleton_append]
      rw [this]
  · rintro ⟨ws, hne, hws, rest, rfl⟩
    have e : flag ++ ws ++ ['-'] ++ rest = flag ++ (ws ++ ('-' :: rest)) := by simp
    rw [e, List.drop_left, List.takeWhile_append_of_pos hws, List.dropWhile_append_of_pos hws,
      List.takeWhile_cons, List.dropWhile_cons, isSpace_dash]
    refine ⟨List.prefix_append _ _, ?_, ?_⟩
    · simpa using List.length_pos.2 hne
    · simp

theorem matchFlagThenDash_iff_suffix (flag s : Str) :
    matchFlagThenDash flag s = true ↔ ∃ t, t <:+ s ∧ flagThenDashAt flag t = true := by
  induction s with
  | nil =>
    simp only [matchFlagThenDash, List.suffix_nil]
    constructor
    · intro h; exact ⟨[], rfl, h⟩
    · rintro ⟨t, rfl, h⟩; exact h
  | cons c cs ih =>
    simp only [matchFlagThenDash, Bool.or_eq_true, ih, List.suffix_cons_iff]
    constructor
    · rintro (h | ⟨t, ht, h⟩)
      · exact ⟨c :: cs, Or.inl rfl, h⟩
      · exact ⟨t, Or.inr ht, h⟩
    · rintro ⟨t, rfl | ht, h⟩
      · exact Or.inl h
      · exact Or.inr ⟨t, ht, h⟩

/-- The regexp `flag\s+-` matches somewhere in `s` exactly when `s` contains the flag,
one or more whitespace characters and a `-`, in a row. -/
theorem matchFlagThenDash_iff (flag s : Str) :
    matchFlagThenDash flag s = true ↔
      ∃ ws : Str, ws ≠ [] ∧ (∀ c ∈ ws, isSpace c = true) ∧ flag ++ ws ++ ['-'] <:+: s := by
  rw [matchFlagThenDash_iff_suffix]
  constructor
  · rintro ⟨t, ht, h⟩
    obtain ⟨ws, hne, hws, hp⟩ := (flagThenDashAt_iff flag t).1 h
    exact ⟨ws, hne, hws, List.infix_iff_prefix_suffix.2 ⟨t, hp, ht⟩⟩
  · rintro ⟨ws, hne, hws, hi⟩
    obtain ⟨t, hp, ht⟩ := List.infix_iff_prefix_suffix.1 hi
    exact ⟨t, ht, (flagThenDashAt_iff flag t).2 ⟨ws, hne, hws, hp⟩⟩

/-- What `hasStandaloneFlag` computes, in words of substrings. -/
theorem standaloneFlag_cases (command flag : Str) :
    hasStandaloneFlag command flag = true ↔
      (flag ++ [' '] <:+: command) ∨ (flag <:+ command) ∨
      ∃ ws : Str, ws ≠ [] ∧ (∀ c ∈ ws, isSpace c = true) ∧
        flag ++ ws ++ ['-'] <:+: command := by
  unfold hasStandaloneFlag
  by_cases h : (strContains command (flag ++ " ".toList) || hasSuffix command flag) = true
  · rw [if_pos h]
    simp only [Bool.or_eq_true, strContains_iff, hasSuffix_iff] at h
    simp only [true_iff]
    rcases h with h | h
    · exact Or.inl h
    · exact Or.inr (Or.inl h)
  · rw [if_neg h, matchFlagThenDash_iff]
    simp only [Bool.or_eq_true, strContains_iff, hasSuffix_iff, not_or] at h
    constructor
    · intro h'; exact Or.inr (Or.inr h')
    · rintro (h' | h' | h')
      · exact absurd h' h.1
      · exact absurd h' h.2
      · exact h'

theorem hasStandaloneFlag_subset (command flag : Str)
    (h : hasStandaloneFlag command flag = true) : flag ⊆ command := by
  rcases (standaloneFlag_cases command flag).1 h with h | h | ⟨ws, _, _, h⟩
  · exact fun x hx => h.subset (List.mem_append_left _ hx)
  · exact h.subset
  · exact fun x hx => h.subset (List.mem_append_left _ (List.mem_append_left _ hx))

theorem hasStandaloneFlag_eq_false_of_not_mem (command flag : Str) (x : Char)
    (hx : x ∈ flag) (hc : x ∉ command) : hasStandaloneFlag command flag = false := by
  rw [Bool.eq_false_iff]
  intro h
  exact hc (hasStandaloneFlag_subset command flag h hx)

/-! ## Commands without flags -/

theorem getPortRange_of_no_dash (command : Str) (h : '-' ∉ command) :
    getPortRange command = "Top 1000".toList := by
  unfold getPortRange
  rw [strContains_eq_false_of_not_mem command _ '-' (by decide) h,
    strContains_eq_false_of_not_mem command "--top-ports".toList '-' (by decide) h,
    hasStandaloneFlag_eq_false_of_not_mem command _ '-' (by decide) h,
    strContains_eq_false_of_not_mem command " -p".toList '-' (by decide) h]
  rfl

/-! ## Features and the first segment -/

theorem hasFlag_eq_false_iff (scanFlags : List Char) (x : Char) :
    hasFlag scanFlags x = false ↔ x ∉ scanFlags := by
  rw [← hasFlag_iff, Bool.not_eq_true]

/-- The first segment always ends with a space and the port range. -/
theorem firstSegment_suffix (ps ts : List Str) (portRange : Str) :
    " ".toList ++ portRange <:+ firstSegment ps ts portRange := by
  unfold firstSegment
  split
  · exact ⟨_, (List.append_assoc _ _ _).symm⟩
  · split
    · exact ⟨"TCP (".toList ++ strJoin ts "/".toList ++ ")".toList, by
        simp [show ") ".toList = ')' :: " ".toList from rfl]⟩
    · exact ⟨"TCP".toList, rfl⟩

/-- C4: when standalone `-A` is detected and neither `C` nor `V` is a group letter,
the features appended are `Script Scan` and `OS + Version Detection`, in that order,
so the label is the first segment followed by
`, Script Scan, OS + Version Detection`. -/
theorem determineScanType_aggressive (command : Str)
    (hA : hasStandaloneFlag command "-A".toList = true)
    (hC : 'C' ∉ parseScanFlags command) (hV : 'V' ∉ parseScanFlags command) :
    finalFeatures (features command (parseScanFlags command))
        = ["Script Scan".toList, "OS + Version Detection".toList] ∧
    determineScanType command =
      firstSegment (protocols (parseScanFlags command)) (techniques (parseScanFlags command))
          (getPortRange command) ++ ", Script Scan, OS + Version Detection".toList ∧
    ", Script Scan, OS + Version Detection".toList <:+ determineScanType command := by
  have hff : finalFeatures (features command (parseScanFlags command))
      = ["Script Scan".toList, "OS + Version Detection".toList] := by
    unfold features
    simp only [(hasFlag_eq_false_iff _ _).2 hC, (hasFlag_eq_false_iff _ _).2 hV, hA,
      Bool.or_true, if_true, Bool.not_false, Bool.false_eq_true, if_false, List.nil_append,
      List.singleton_append, List.cons_append]
    decide
  have heq := determineScanType_eq command
  rw [hff] at heq
  refine ⟨hff, heq, ?_⟩
  rw [heq]
  exact List.suffix_append _ _

theorem determineScanType_aggressive_witness :
    finalFeatures (features "nmap -A 192.168.1.1".toList
        (parseScanFlags "nmap -A 192.168.1.1".toList))
        = ["Script Scan".toList, "OS + Version Detection".toList] ∧
    determineScanType "nmap -A 192.168.1.1".toList
        = "TCP Top 1000, Script Scan, OS + Version Detection".toList :=
  ⟨(determineScanType_aggressive "nmap -A 192.168.1.1".toList
      (by decide) (by decide) (by decide)).1, by decide⟩

/-- C5: a command that contains `-p-` has port range `All Ports`, whatever else it
contains, and the first segment of its label ends with ` All Ports`. -/
theorem getPortRange_all_ports (command : Str) (h : "-p-".toList <:+: command) :
    getPortRange command = "All Ports".toList ∧
    " All Ports".toList <:+
      firstSegment (protocols (parseScanFlags command)) (techniques (parseScanFlags command))
        (getPortRange command) ∧
    determineScanType command =
      firstSegment (protocols (parseScanFlags command)) (techniques (parseScanFlags command))
          "All Ports".toList ++
        ((finalFeatures (features command (parseScanFlags command))).map
          (fun f => ", ".toList ++ f)).flatten := by
  have hp : getPortRange command = "All Ports".toList := by
    unfold getPortRange
    rw [if_pos ((strContains_iff _ _).2 h)]
  refine ⟨hp, ?_, ?_⟩
  · rw [hp]
    exact firstSegment_suffix _ _ _
  · rw [determineScanType_eq, hp]

theorem getPortRange_all_ports_witness :
    getPortRange "nmap -F --top-ports 50 -p 22 -p- 10.0.0.1".toList = "All Ports".toList ∧
    determineScanType "nmap -sS -p- 192.168.1.1".toList = "TCP (SYN) All Ports".toList :=
  ⟨(getPortRange_all_ports "nmap -F --top-ports 50 -p 22 -p- 10.0.0.1".toList
      ((strContains_iff _ _).1 (by decide))).1, by decide⟩

/-! ## Protocols -/

theorem hasTCPTechnique_eq_false (scanFlags : List Char)
    (h : ∀ x ∈ ['T', 'S', 'A', 'N', 'F', 'X', 'W', 'M'], x ∉ scanFlags) :
    hasTCPTechnique scanFlags = false := by
  unfold hasTCPTechnique
  simp only [List.mem_cons, List.mem_singleton, forall_eq_or_imp, forall_eq,
    List.not_mem_nil, false_implies, implies_true, and_true] at h
  obtain ⟨hT, hS, hA, hN, hF, hX, hW, hM⟩ := h
  simp only [(hasFlag_eq_false_iff _ _).2 hT, (hasFlag_eq_false_iff _ _).2 hS,
    (hasFlag_eq_false_iff _ _).2 hA, (hasFlag_eq_false_iff _ _).2 hN,
    (hasFlag_eq_false_iff _ _).2 hF, (hasFlag_eq_false_iff _ _).2 hX,
    (hasFlag_eq_false_iff _ _).2 hW, (hasFlag_eq_false_iff _ _).2 hM, Bool.or_self]

theorem techniques_eq_nil (scanFlags : List Char)
    (h : ∀ x ∈ ['T', 'S', 'A', 'N', 'F', 'X', 'W', 'M'], x ∉ scanFlags) :
    techniques scanFlags = [] := by
  unfold techniques
  simp only [List.mem_cons, List.mem_singleton, forall_eq_or_imp, forall_eq,
    List.not_mem_nil, false_implies, implies_true, and_true] at h
  obtain ⟨hT, hS, hA, hN, hF, hX, hW, hM⟩ := h
  simp only [(hasFlag_eq_false_iff _ _).2 hT, (hasFlag_eq_false_iff _ _).2 hS,
    (hasFlag_eq_false_iff _ _).2 hA, (hasFlag_eq_false_iff _ _).2 hN,
    (hasFlag_eq_false_iff _ _).2 hF, (hasFlag_eq_false_iff _ _).2 hX,
    (hasFlag_eq_false_iff _ _).2 hW, (hasFlag_eq_false_iff _ _).2 hM,
    Bool.false_eq_true, if_false]

/-- C6: with `V` or `C` among the group letters and no protocol letter (`U`, `Y`,
`Z`, `O`) and no TCP technique letter, the protocol list is the single entry `TCP`,
and the label starts with `TCP ` followed by the port range. -/
theorem determineScanType_default_tcp (command : Str)
    (hVC : 'V' ∈ parseScanFlags command ∨ 'C' ∈ parseScanFlags command)
    (hP : ∀ x ∈ ['U', 'Y', 'Z', 'O'], x ∉ parseScanFlags command)
    (hT : ∀ x ∈ ['T', 'S', 'A', 'N', 'F', 'X', 'W', 'M'], x ∉ parseScanFlags command) :
    protocols (parseScanFlags command) = ["TCP".toList] ∧
    firstSegment (protocols (parseScanFlags command)) (techniques (parseScanFlags command))
        (getPortRange command) = "TCP ".toList ++ getPortRange command ∧
    "TCP ".toList ++ getPortRange command <+: determineScanType command := by
  have hp : protocols (parseScanFlags command) = ["TCP".toList] := by
    unfold protocols
    have hVC' : (hasFlag (parseScanFlags command) 'V' || hasFlag (parseScanFlags command) 'C')
        = true := by
      rw [Bool.or_eq_true, hasFlag_iff, hasFlag_iff]; exact hVC
    simp only [List.mem_cons, List.mem_singleton, forall_eq_or_imp, forall_eq,
      List.not_mem_nil, false_implies, implies_true, and_true] at hP
    obtain ⟨hU, hY, hZ, hO⟩ := hP
    simp only [hasTCPTechnique_eq_false _ hT, (hasFlag_eq_false_iff _ _).2 hU,
      (hasFlag_eq_false_iff _ _).2 hY, (hasFlag_eq_false_iff _ _).2 hZ,
      (hasFlag_eq_false_iff _ _).2 hO, hVC', Bool.false_eq_true, if_false, List.length_nil,
      and_self, if_true, List.nil_append]
  have hs : firstSegment (protocols (parseScanFlags command))
      (techniques (parseScanFlags command)) (getPortRange command)
      = "TCP ".toList ++ getPortRange command := by
    rw [hp, techniques_eq_nil _ hT]
    rfl
  refine ⟨hp, hs, ?_⟩
  rw [determineScanType_eq, hs]
  exact List.prefix_append _ _

theorem determineScanType_default_tcp_witness :
    protocols (parseScanFlags "nmap -sV 192.168.1.1".toList) = ["TCP".toList] ∧
    determineScanType "nmap -sV 192.168.1.1".toList
      = "TCP Top 1000, Version Detection".toList :=
  ⟨(determineScanType_default_tcp "nmap -sV 192.168.1.1".toList
      (by decide) (by decide) (by decide)).1, by decide⟩

/-! ## Standalone flags and `-s` groups -/

/-- C8 (as stated, refuted): `-O` glued to the next flag, as in
`nmap -O-sV 10.0.0.1`, is not detected, and neither is `-O` followed by a tab that is
not followed by `-`. -/
theorem hasStandaloneFlag_glued_counterexample :
    "-O".toList ++ "-sV".toList <:+: "nmap -O-sV 10.0.0.1".toList ∧
    hasStandaloneFlag "nmap -O-sV 10.0.0.1".toList "-O".toList = false ∧
    "-O".toList ++ ['\t'] <:+: "nmap -O\t10.0.0.1".toList ∧ isSpace '\t' = true ∧
    hasStandaloneFlag "nmap -O\t10.0.0.1".toList "-O".toList = false := by
  refine ⟨(strContains_iff _ _).1 (by decide), by decide, (strContains_iff _ _).1 (by decide),
    by decide, by decide⟩

/-- C8 (amended): `hasStandaloneFlag command f` is true when the command contains `f`
immediately followed by a space character, when the command ends with `f`, and when
the command contains `f` followed by one or more whitespace characters and then `-`;
it is false in every other case. -/
theorem hasStandaloneFlag_iff (command f : Str) :
    hasStandaloneFlag command f = true ↔
      (f ++ [' '] <:+: command) ∨ (f <:+ command) ∨
      ∃ ws : Str, ws ≠ [] ∧ (∀ c ∈ ws, isSpace c = true) ∧ f ++ ws ++ ['-'] <:+: command :=
  standaloneFlag_cases command f

/-- C9: `x` is in the flag set exactly when the command has an occurrence of `-s`
whose maximal run of ASCII letters right after it contains `x`; groups accumulate
(`-sUT -sCO` gives `U`, `T`, `C`, `O` and nothing else), a group that ends the string
is read in full, and a command without `-s` gives the empty set. -/
theorem parseScanFlags_spec :
    (∀ (c : Str) (x : Char),
      x ∈ parseScanFlags c ↔
        ∃ pre run rest : Str, c = pre ++ "-s".toList ++ run ++ rest ∧
          (∀ y ∈ run, isLetter y = true) ∧
          (∀ y, rest.head? = some y → isLetter y = false) ∧ x ∈ run) ∧
    parseScanFlags "-sUT -sCO".toList = ['U', 'T', 'C', 'O'] ∧
    (∀ (pre run : Str) (x : Char), (∀ y ∈ run, isLetter y = true) → x ∈ run →
      x ∈ parseScanFlags (pre ++ "-s".toList ++ run)) ∧
    (∀ c : Str, ¬ "-s".toList <:+: c → parseScanFlags c = []) := by
  have key : ∀ (pre run rest : Str) (x : Char), (∀ y ∈ run, isLetter y = true) → x ∈ run →
      x ∈ parseScanFlags (pre ++ "-s".toList ++ run ++ rest) := by
    intro pre run rest x hrun hx
    rw [mem_parseScanFlags]
    refine ⟨pre.length, ?_, ?_, ?_⟩
    · have : 0 < run.length := List.length_pos_of_mem hx
      have h2 : "-s".toList.length = 2 := rfl
      simp only [List.length_append, h2]
      omega
    · have e : pre ++ "-s".toList ++ run ++ rest = pre ++ ("-s".toList ++ (run ++ rest)) := by
        simp
      rw [e, List.drop_left]
      rfl
    · have e : pre ++ "-s".toList ++ run ++ rest = (pre ++ "-s".toList) ++ (run ++ rest) := by
        simp
      have l : pre.length + 2 = (pre ++ "-s".toList).length := by simp
      rw [e, l, List.drop_left, List.takeWhile_append_of_pos hrun]
      exact List.mem_append_left _ hx
  refine ⟨fun c x => ⟨?_, ?_⟩, by decide, ?_, parseScanFlags_eq_nil_of_not_contains⟩
  · intro hx
    obtain ⟨i, _, h2, h3⟩ := (mem_parseScanFlags c x).1 hx
    refine ⟨c.take i, (c.drop (i + 2)).takeWhile isLetter, (c.drop (i + 2)).dropWhile isLetter,
      ?_, fun y hy => List.mem_takeWhile_imp hy, ?_, h3⟩
    · rw [List.append_assoc, List.takeWhile_append_dropWhile, ← h2]
      have : c.drop (i + 2) = (c.drop i).drop 2 := by rw [List.drop_drop, Nat.add_comm]
      rw [this, List.append_assoc, List.take_append_drop, List.take_append_drop]
    · intro y hy
      have := List.head?_dropWhile_not isLetter (c.drop (i + 2))
      rw [hy] at this
      exact this
  · rintro ⟨pre, run, rest, rfl, hrun, _, hx⟩
    exact key pre run rest x hrun hx
  · intro pre run x hrun hx
    have := key pre run [] x hrun hx
    rwa [List.append_nil] at this

theorem parseScanFlags_spec_witness :
    'V' ∈ parseScanFlags ("nmap ".toList ++ "-s".toList ++ "CV".toList) ∧
    parseScanFlags "nmap 10.0.0.1".toList = [] :=
  ⟨parseScanFlags_spec.2.2.1 "nmap ".toList "CV".toList 'V' (by decide) (by decide),
    parseScanFlags_spec.2.2.2 "nmap 10.0.0.1".toList
      (fun h => absurd ((strContains_iff _ _).2 h) (by decide))⟩

/-! ## `getPortRange`: the two capturing regexps -/

theorem isSpace_of_isDigit (c : Char) (h : isDigit c = true) : isSpace c = false := by
  rw [Bool.eq_false_iff]
  intro hs
  simp only [isSpace, Bool.or_eq_true, beq_iff_eq] at hs
  rcases hs with (((rfl | rfl) | rfl) | rfl) | rfl <;> exact absurd h (by decide)

theorem topPortsAt_isSome_iff (t : Str) :
    (topPortsAt t).isSome = true ↔
      ∃ (ws : Str) (d : Char), ws ≠ [] ∧ (∀ c ∈ ws, isSpace c = true) ∧ isDigit d = true ∧
        "--top-ports".toList ++ ws ++ [d] <+: t := by
  unfold topPortsAt
  constructor
  · intro h
    split at h
    · rename_i hp
      obtain ⟨r, rfl⟩ := (hasPrefix_iff _ _).1 hp
      have e : ("--top-ports".toList ++ r).drop 11 = r := List.drop_left "--top-ports".toList r
      simp only [e] at h
      split at h
      · rename_i hc
        obtain ⟨hws, hd⟩ := hc
        cases hdd : (r.dropWhile isSpace).takeWhile isDigit with
        | nil => exact absurd hdd hd
        | cons d ds =>
          have hdig : isDigit d = true :=
            List.mem_takeWhile_imp (p := isDigit) (l := r.dropWhile isSpace)
              (hdd ▸ List.mem_cons_self d ds)
          refine ⟨r.takeWhile isSpace, d, List.length_pos.1 hws,
            fun c hc => List.mem_takeWhile_imp hc, hdig, ?_⟩
          refine ⟨ds ++ (r.dropWhile isSpace).dropWhile isDigit, ?_⟩
          have h1 := List.takeWhile_append_dropWhile isDigit (r.dropWhile isSpace)
          have h2 := List.takeWhile_append_dropWhile isSpace r
          rw [hdd] at h1
          calc "--top-ports".toList ++ r.takeWhile isSpace ++ [d] ++
                (ds ++ (r.dropWhile isSpace).dropWhile isDigit)
              = "--top-ports".toList ++ (r.takeWhile isSpace ++
                  (d :: ds ++ (r.dropWhile isSpace).dropWhile isDigit)) := by simp
            _ = "--top-ports".toList ++ r := by rw [h1, h2]
      · simp at h
    · simp at h
  · rintro ⟨ws, d, hne, hws, hd, rest, rfl⟩
    have e : "--top-ports".toList ++ ws ++ [d] ++ rest
        = "--top-ports".toList ++ (ws ++ (d :: rest)) := by simp
    have hp : hasPrefix ("--top-ports".toList ++ (ws ++ (d :: rest))) "--top-ports".toList
        = true := (hasPrefix_iff _ _).2 (List.prefix_append _ _)
    have e2 : ("--top-ports".toList ++ (ws ++ (d :: rest))).drop 11 = ws ++ (d :: rest) :=
      List.drop_left "--top-ports".toList _
    rw [e, if_pos hp]
    simp only [e2, List.takeWhile_append_of_pos hws, List.dropWhile_append_of_pos hws,
      List.takeWhile_cons, List.dropWhile_cons, isSpace_of_isDigit d hd, hd]
    simp [List.length_pos.2 hne, hd]

theorem findTopPorts_isSome_iff_suffix (s : Str) :
    (findTopPorts s).isSome = true ↔ ∃ t, t <:+ s ∧ (topPortsAt t).isSome = true := by
  induction s with
  | nil =>
    simp only [findTopPorts, List.suffix_nil]
    constructor
    · intro h; exact ⟨[], rfl, h⟩
    · rintro ⟨t, rfl, h⟩; exact h
  | cons c cs ih =>
    simp only [findTopPorts, List.suffix_cons_iff]
    cases hc : topPortsAt (c :: cs) with
    | some d =>
      simp only [Option.isSome_some, true_iff]
      exact ⟨c :: cs, Or.inl rfl, by rw [hc]; rfl⟩
    | none =>
      simp only [ih]
      constructor
      · rintro ⟨t, ht, h⟩; exact ⟨t, Or.inr ht, h⟩
      · rintro ⟨t, rfl | ht, h⟩
        · rw [hc] at h; simp at h
        · exact ⟨t, ht, h⟩

/-- The regexp `--top-ports\s+(\d+)` matches somewhere in `s` exactly when `s` contains
`--top-ports`, one or more whitespace characters and a digit, in a row. -/
theorem findTopPorts_isSome_iff (s : Str) :
    (findTopPorts s).isSome = true ↔
      ∃ (ws : Str) (d : Char), ws ≠ [] ∧ (∀ c ∈ ws, isSpace c = true) ∧ isDigit d = true ∧
        "--top-ports".toList ++ ws ++ [d] <:+: s := by
  rw [findTopPorts_isSome_iff_suffix]
  constructor
  · rintro ⟨t, ht, h⟩
    obtain ⟨ws, d, hne, hws, hd, hp⟩ := (topPortsAt_isSome_iff t).1 h
    exact ⟨ws, d, hne, hws, hd, List.infix_iff_prefix_suffix.2 ⟨t, hp, ht⟩⟩
  · rintro ⟨ws, d, hne, hws, hd, hi⟩
    obtain ⟨t, hp, ht⟩ := List.infix_iff_prefix_suffix.1 hi
    exact ⟨t, ht, (topPortsAt_isSome_iff t).2 ⟨ws, d, hne, hws, hd, hp⟩⟩

/-- Rule 2 of `getPortRange` does not fire exactly when the regexp finds no match. -/
theorem topPorts_rule_none (command : Str) (h : (findTopPorts command).isSome = false) :
    (if strContains command "--top-ports".toList then findTopPorts command else none)
      = none := by
  split
  · cases hf : findTopPorts command with
    | none => rfl
    | some d => rw [hf] at h; simp at h
  · rfl

theorem portSpecAt_match (ws s rest : Str) (hws : ∀ c ∈ ws, isSpace c = true) (hs : s ≠ [])
    (hs' : ∀ c ∈ s, isSpace c = false) (hrest : ∀ c, rest.head? = some c → isSpace c = true) :
    portSpecAt ('-' :: 'p' :: (ws ++ s ++ rest)) = some s := by
  unfold portSpecAt
  have hp : hasPrefix ('-' :: 'p' :: (ws ++ s ++ rest)) "-p".toList = true :=
    (hasPrefix_iff _ _).2 ⟨ws ++ s ++ rest, rfl⟩
  have hd : (s ++ rest).dropWhile isSpace = s ++ rest := by
    cases s with
    | nil => exact absurd rfl hs
    | cons a s' =>
      rw [List.cons_append, List.dropWhile_cons, hs' a (List.mem_cons_self a s')]
      rfl
  have ht : (s ++ rest).takeWhile (fun c => !isSpace c) = s := by
    rw [List.takeWhile_append_of_pos (fun a ha => by simp [hs' a ha])]
    cases rest with
    | nil => simp
    | cons b r =>
      rw [List.takeWhile_cons, hrest b rfl]
      simp
  rw [if_pos hp]
  simp only [List.drop_succ_cons, List.drop_zero, List.append_assoc,
    List.dropWhile_append_of_pos hws, hd, ht]
  rw [if_pos hs]

theorem findPortSpec_skip (pre t : Str) (h : ¬ "-p".toList <:+: pre) :
    findPortSpec (pre ++ ' ' :: '-' :: t) = findPortSpec ('-' :: t) := by
  induction pre with
  | nil =>
    have : portSpecAt (' ' :: '-' :: t) = none := by
      unfold portSpecAt
      rw [if_neg]
      rw [hasPrefix_iff]
      rintro ⟨r, hr⟩
      exact absurd (List.cons.inj hr).1 (by decide)
    simp only [List.nil_append, findPortSpec, this]
  | cons c pre' ih =>
    have hnone : portSpecAt (c :: (pre' ++ ' ' :: '-' :: t)) = none := by
      unfold portSpecAt
      rw [if_neg]
      rw [hasPrefix_iff]
      rintro ⟨r, hr⟩
      cases pre' with
      | nil =>
        have := (List.cons.inj (List.cons.inj hr).2).1
        exact absurd this (by decide)
      | cons d pre'' =>
        have h1 := (List.cons.inj hr).1
        have h2 := (List.cons.inj (List.cons.inj hr).2).1
        apply h
        rw [← h1, ← h2]
        exact (List.prefix_append ['-', 'p'] pre'').isInfix
    rw [List.cons_append, findPortSpec, hnone]
    exact ih (fun hi => h (List.infix_cons hi))

theorem strContains_singleton (s : Str) (x : Char) : strContains s [x] = true ↔ x ∈ s := by
  rw [strContains_iff]
  constructor
  · intro h; exact h.subset (List.mem_singleton_self x)
  · intro h
    obtain ⟨a, b, rfl⟩ := List.append_of_mem h
    exact ⟨a, b, by simp⟩

/-- C10 (as stated, refuted): a `-p` that is not preceded by a space character is
not looked at.  With a tab before `-p 22` the port range is the default and not
`Port 22`; the `-p` inside `--top-ports=5` is followed by the non-whitespace text
`orts=5`, and the port range is the default and not `Port orts=5`. -/
theorem getPortRange_custom_counterexample :
    (¬ "-p-".toList <:+: "nmap\t-p 22 10.0.0.1".toList ∧
      (findTopPorts "nmap\t-p 22 10.0.0.1".toList).isSome = false ∧
      hasStandaloneFlag "nmap\t-p 22 10.0.0.1".toList "-F".toList = false ∧
      "nmap\t-p 22 10.0.0.1".toList
        = "nmap\t".toList ++ "-p".toList ++ " ".toList ++ "22".toList ++ " 10.0.0.1".toList ∧
      getPortRange "nmap\t-p 22 10.0.0.1".toList = "Top 1000".toList ∧
      getPortRange "nmap\t-p 22 10.0.0.1".toList ≠ "Port 22".toList) ∧
    (¬ "-p-".toList <:+: "nmap --top-ports=5 10.0.0.1".toList ∧
      (findTopPorts "nmap --top-ports=5 10.0.0.1".toList).isSome = false ∧
      hasStandaloneFlag "nmap --top-ports=5 10.0.0.1".toList "-F".toList = false ∧
      "nmap --top-ports=5 10.0.0.1".toList
        = "nmap --top".toList ++ "-p".toList ++ "orts=5".toList ++ " 10.0.0.1".toList ∧
      getPortRange "nmap --top-ports=5 10.0.0.1".toList = "Top 1000".toList ∧
      getPortRange "nmap --top-ports=5 10.0.0.1".toList ≠ "Port orts=5".toList) := by
  refine ⟨⟨fun h => absurd ((strContains_iff _ _).2 h) (by decide), by decide, by decide,
    by decide, by decide, by decide⟩,
    ⟨fun h => absurd ((strContains_iff _ _).2 h) (by decide), by decide, by decide,
    by decide, by decide, by decide⟩⟩

/-- C10 (amended): for a command without `-p-`, without a `--top-ports` match and
without standalone `-F`, whose first `-p` is preceded by a space and followed, after
optional whitespace, by the port specification `s` (the non-whitespace text up to the
next whitespace or the end), `getPortRange` returns `Custom Ports` when `s` contains
`-` or `,` and `Port ` followed by `s` otherwise. -/
theorem getPortRange_port_spec (pre ws s rest : Str)
    (hpre : ¬ "-p".toList <:+: pre)
    (hws : ∀ c ∈ ws, isSpace c = true)
    (hs : s ≠ []) (hs' : ∀ c ∈ s, isSpace c = false)
    (hrest : ∀ c, rest.head? = some c → isSpace c = true)
    (hall : ¬ "-p-".toList <:+: pre ++ " -p".toList ++ ws ++ s ++ rest)
    (htop : ¬ ∃ (w : Str) (d : Char), w ≠ [] ∧ (∀ c ∈ w, isSpace c = true) ∧
      isDigit d = true ∧
      "--top-ports".toList ++ w ++ [d] <:+: pre ++ " -p".toList ++ ws ++ s ++ rest)
    (hF : hasStandaloneFlag (pre ++ " -p".toList ++ ws ++ s ++ rest) "-F".toList = false) :
    getPortRange (pre ++ " -p".toList ++ ws ++ s ++ rest) =
      if '-' ∈ s ∨ ',' ∈ s then "Custom Ports".toList else "Port ".toList ++ s := by
  have htop' : (findTopPorts (pre ++ " -p".toList ++ ws ++ s ++ rest)).isSome = false := by
    rw [Bool.eq_false_iff]
    exact fun h => htop ((findTopPorts_isSome_iff _).1 h)
  have hsp : strContains (pre ++ " -p".toList ++ ws ++ s ++ rest) " -p".toList = true :=
    (strContains_iff _ _).2 ⟨pre, ws ++ s ++ rest, by simp⟩
  have hfind : findPortSpec (pre ++ " -p".toList ++ ws ++ s ++ rest) = some s := by
    have e : pre ++ " -p".toList ++ ws ++ s ++ rest
        = pre ++ ' ' :: '-' :: ('p' :: (ws ++ s ++ rest)) := by
      simp [show " -p".toList = [' ', '-', 'p'] from rfl]
    rw [e, findPortSpec_skip pre _ hpre, findPortSpec, portSpecAt_match ws s rest hws hs hs' hrest]
  unfold getPortRange
  rw [if_neg (fun h => hall ((strContains_iff _ _).1 h)), topPorts_rule_none _ htop']
  simp only [hF, Bool.false_eq_true, if_false, hsp, if_true, hfind]
  have h1 : strContains s "-".toList = true ↔ '-' ∈ s := strContains_singleton s '-'
  have h2 : strContains s ",".toList = true ↔ ',' ∈ s := strContains_singleton s ','
  simp only [Bool.or_eq_true, h1, h2]

theorem getPortRange_port_spec_witness :
    getPortRange ("nmap".toList ++ " -p".toList ++ " ".toList ++ "22".toList
        ++ " 192.168.1.1".toList) = "Port 22".toList ∧
    getPortRange ("nmap".toList ++ " -p".toList ++ " ".toList ++ "80,443,8080".toList
        ++ " 192.168.1.1".toList) = "Custom Ports".toList ∧
    determineScanType "nmap -p 22 192.168.1.1".toList = "TCP Port 22".toList ∧
    determineScanType "nmap -p 80,443,8080 192.168.1.1".toList = "TCP Custom Ports".toList :=
  ⟨(getPortRange_port_spec "nmap".toList " ".toList "22".toList " 192.168.1.1".toList
      (fun h => absurd ((strContains_iff _ _).2 h) (by decide)) (by decide) (by decide)
      (by decide) (by decide)
      (fun h => absurd ((strContains_iff _ _).2 h) (by decide))
      (fun h => absurd ((findTopPorts_isSome_iff _).2 h) (by decide))
      (by decide)).trans (by decide),
   (getPortRange_port_spec "nmap".toList " ".toList "80,443,8080".toList " 192.168.1.1".toList
      (fun h => absurd ((strContains_iff _ _).2 h) (by decide)) (by decide) (by decide)
      (by decide) (by decide)
      (fun h => absurd ((strContains_iff _ _).2 h) (by decide))
      (fun h => absurd ((findTopPorts_isSome_iff _).2 h) (by decide))
      (by decide)).trans (by decide),
   by decide, by decide⟩

/-! ## Texts that cannot occur in a label -/

theorem scan_append (a b : Char) (q : Nat) (x y : Str) :
    scan a b q (x ++ y) = scan a b (scan a b q x) y := by
  unfold scan
  exact List.foldl_append _ _ _ _

theorem scan_three (a b : Char) (w : Str) : scan a b 3 w = 3 := by
  induction w with
  | nil => rfl
  | cons c w ih =>
    have : scan a b 3 (c :: w) = scan a b (scanStep a b 3 c) w := rfl
    rw [this]
    simpa [scanStep] using ih

theorem scanStep_le (a b : Char) (q : Nat) (c : Char) : scanStep a b q c ≤ 3 := by
  unfold scanStep
  split_ifs <;> omega

/-- The scanner is complete: a string that contains `a`, `b`, space ends in state 3. -/
theorem scan_of_occurrence (a b : Char) (hab : a ≠ b) (ha : a ≠ ' ') (q : Nat) (w : Str)
    (h : [a, b, ' '] <:+: w) : scan a b q w = 3 := by
  obtain ⟨u, v, rfl⟩ := h
  rw [scan_append, scan_append]
  have h3 : scan a b (scan a b q u) [a, b, ' '] = 3 := by
    generalize scan a b q u = q'
    simp only [scan, List.foldl_cons, List.foldl_nil]
    by_cases hq : q' = 3
    · subst hq; simp [scanStep]
    · have h1 : scanStep a b q' a = 1 := by simp [scanStep, hq, ha, hab]
      rw [h1]
      simp [scanStep]
  rw [h3, scan_three]

/-- Characters other than the space cannot complete the text. -/
theorem scan_nonspace (a b : Char) (w : Str) (hw : ∀ c ∈ w, c ≠ ' ') (q : Nat) (hq : q ≤ 2) :
    scan a b q w ≤ 2 := by
  induction w generalizing q with
  | nil => exact hq
  | cons c w ih =>
    have e : scan a b q (c :: w) = scan a b (scanStep a b q c) w := rfl
    rw [e]
    apply ih (fun x hx => hw x (List.mem_cons_of_mem _ hx))
    have hc : c ≠ ' ' := hw c (List.mem_cons_self c w)
    unfold scanStep
    split_ifs with h1 h2
    · omega
    · exact absurd h2.2 hc
    all_goals omega

theorem calm_iff (a b : Char) (p : Str) :
    calm a b p = true ↔ ∀ q, q ≤ 1 → scan a b q p ≤ 1 := by
  unfold calm
  simp only [Bool.and_eq_true, decide_eq_true_eq]
  constructor
  · rintro ⟨h0, h1⟩ q hq
    interval_cases q
    · exact h0
    · exact h1
  · intro h
    exact ⟨h 0 (by omega), h 1 (by omega)⟩

theorem settle_iff (a b : Char) (p : Str) :
    settle a b p = true ↔ ∀ q, q ≤ 2 → scan a b q p ≤ 1 := by
  unfold settle
  simp only [Bool.and_eq_true, decide_eq_true_eq, calm_iff]
  constructor
  · rintro ⟨h01, h2⟩ q hq
    rcases Nat.lt_or_ge q 2 with h | h
    · exact h01 q (by omega)
    · have : q = 2 := by omega
      subst this; exact h2
  · intro h
    exact ⟨fun q hq => h q (by omega), h 2 (by omega)⟩

theorem calm_append (a b : Char) (x y : Str) (hx : calm a b x = true) (hy : calm a b y = true) :
    calm a b (x ++ y) = true := by
  rw [calm_iff] at hx hy ⊢
  intro q hq
  rw [scan_append]
  exact hy _ (hx q hq)

theorem calm_strJoin (a b : Char) (sep : Str) (hsep : calm a b sep = true) (l : List Str)
    (hl : ∀ p ∈ l, calm a b p = true) : calm a b (strJoin l sep) = true := by
  induction l with
  | nil => rw [calm_iff]; intro q hq; exact hq
  | cons x rest ih =>
    cases rest with
    | nil => exact hl x (List.mem_cons_self x [])
    | cons y rest =>
      rw [strJoin_cons_cons]
      exact calm_append a b _ _
        (calm_append a b _ _ (hl x (List.mem_cons_self x _)) hsep)
        (ih (fun p hp => hl p (List.mem_cons_of_mem _ hp)))

theorem scan_flatten_settle (a b : Char) (l : List Str) (hl : ∀ p ∈ l, settle a b p = true)
    (q : Nat) (hq : q ≤ 2) : scan a b q l.flatten ≤ 2 := by
  induction l generalizing q with
  | nil => exact hq
  | cons x rest ih =>
    rw [List.flatten_cons, scan_append]
    apply ih (fun p hp => hl p (List.mem_cons_of_mem _ hp))
    have := (settle_iff a b x).1 (hl x (List.mem_cons_self x rest)) q hq
    omega

/-! ## The shape of the port range -/

theorem topPortsAt_digits (t n : Str) (h : topPortsAt t = some n) :
    ∀ ch ∈ n, isDigit ch = true := by
  unfold topPortsAt at h
  split at h
  · simp only at h
    split at h
    · cases h
      exact fun ch hch => List.mem_takeWhile_imp hch
    · cases h
  · cases h

theorem findTopPorts_digits (s n : Str) (h : findTopPorts s = some n) :
    ∀ ch ∈ n, isDigit ch = true := by
  induction s with
  | nil => exact topPortsAt_digits [] n h
  | cons c cs ih =>
    rw [findTopPorts] at h
    cases hc : topPortsAt (c :: cs) with
    | some d =>
      rw [hc] at h
      cases h
      exact topPortsAt_digits _ _ hc
    | none =>
      rw [hc] at h
      exact ih h

theorem portSpecAt_nonspace (t sp : Str) (h : portSpecAt t = some sp) :
    ∀ ch ∈ sp, isSpace ch = false := by
  unfold portSpecAt at h
  split at h
  · simp only at h
    split at h
    · cases h
      intro ch hch
      have := List.mem_takeWhile_imp hch
      simpa using this
    · cases h
  · cases h

theorem findPortSpec_nonspace (s sp : Str) (h : findPortSpec s = some sp) :
    ∀ ch ∈ sp, isSpace ch = false := by
  induction s with
  | nil => exact portSpecAt_nonspace [] sp h
  | cons c cs ih =>
    rw [findPortSpec] at h
    cases hc : portSpecAt (c :: cs) with
    | some d =>
      rw [hc] at h
      cases h
      exact portSpecAt_nonspace _ _ hc
    | none =>
      rw [hc] at h
      exact ih h

/-- Every port range is one of the fixed texts followed by text without a space. -/
theorem getPortRange_shape (command : Str) :
    ∃ pfx sp : Str, getPortRange command = pfx ++ sp ∧ pfx ∈ fixedPieces ∧
      ∀ ch ∈ sp, ch ≠ ' ' := by
  unfold getPortRange
  split
  · exact ⟨"All Ports".toList, [], by simp, by decide, by simp⟩
  · split
    · rename_i n hn
      refine ⟨"Top ".toList, n, rfl, by decide, ?_⟩
      split at hn
      · intro ch hch hsp
        have := findTopPorts_digits _ _ hn ch hch
        rw [hsp] at this
        exact absurd this (by decide)
      · cases hn
    · split
      · exact ⟨"Top 100".toList, [], by simp, by decide, by simp⟩
      · split
        · split
          · rename_i ports hports
            split
            · exact ⟨"Custom Ports".toList, [], by simp, by decide, by simp⟩
            · refine ⟨"Port ".toList, ports, rfl, by decide, ?_⟩
              intro ch hch hsp
              have := findPortSpec_nonspace _ _ hports ch hch
              rw [hsp] at this
              exact absurd this (by decide)
          · exact ⟨"Custom Ports".toList, [], by simp, by decide, by simp⟩
        · exact ⟨"Top 1000".toList, [], by simp, by decide, by simp⟩

theorem protocolParts_calm (a b : Char) (ts ps : List Str)
    (hfix : ∀ p ∈ fixedPieces, calm a b p = true)
    (hP : ∀ p ∈ ps, calm a b p = true) (hT : ∀ t ∈ ts, calm a b t = true) :
    ∀ p ∈ protocolParts ts ps, calm a b p = true := by
  induction ps with
  | nil => intro p hp; cases hp
  | cons x rest ih =>
    intro p hp
    rw [protocolParts, List.mem_cons] at hp
    rcases hp with rfl | hp
    · split
      · exact calm_append a b _ _
          (calm_append a b _ _ (hfix _ (by decide))
            (calm_strJoin a b _ (hfix _ (by decide)) ts hT))
          (hfix _ (by decide))
      · exact hP x (List.mem_cons_self x rest)
    · exact ih (fun q hq => hP q (List.mem_cons_of_mem _ hq)) p hp

theorem firstSegment_split (a b : Char) (ps ts : List Str) (pfx sp : Str)
    (hfix : ∀ p ∈ fixedPieces, calm a b p = true) (hpfx : pfx ∈ fixedPieces)
    (hP : ∀ p ∈ ps, calm a b p = true) (hT : ∀ t ∈ ts, calm a b t = true) :
    ∃ head : Str, calm a b head = true ∧ firstSegment ps ts (pfx ++ sp) = head ++ sp := by
  unfold firstSegment
  split
  · refine ⟨strJoin (protocolParts ts ps) " + ".toList ++ " ".toList ++ pfx, ?_, by simp⟩
    exact calm_append a b _ _
      (calm_append a b _ _
        (calm_strJoin a b _ (hfix _ (by decide)) _ (protocolParts_calm a b ts ps hfix hP hT))
        (hfix _ (by decide)))
      (hfix _ hpfx)
  · split
    · refine ⟨"TCP (".toList ++ strJoin ts "/".toList ++ ") ".toList ++ pfx, ?_, by simp⟩
      exact calm_append a b _ _
        (calm_append a b _ _
          (calm_append a b _ _ (hfix _ (by decide))
            (calm_strJoin a b _ (hfix _ (by decide)) ts hT))
          (hfix _ (by decide)))
        (hfix _ hpfx)
    · refine ⟨"TCP ".toList ++ pfx, ?_, by simp⟩
      exact calm_append a b _ _ (hfix _ (by decide)) (hfix _ hpfx)

/-- A label built from calm pieces never reaches the final state of the scanner. -/
theorem scan_label_le (a b : Char) (command : Str)
    (hfix : ∀ p ∈ fixedPieces, calm a b p = true)
    (hP : ∀ p ∈ protocols (parseScanFlags command), calm a b p = true)
    (hT : ∀ t ∈ techniques (parseScanFlags command), calm a b t = true)
    (hF : ∀ f ∈ finalFeatures (features command (parseScanFlags command)),
      settle a b (", ".toList ++ f) = true) :
    scan a b 0 (determineScanType command) ≤ 2 := by
  obtain ⟨pfx, sp, hpr, hpfx, hsp⟩ := getPortRange_shape command
  obtain ⟨head, hhead, hseg⟩ :=
    firstSegment_split a b (protocols (parseScanFlags command))
      (techniques (parseScanFlags command)) pfx sp hfix hpfx hP hT
  rw [determineScanType_eq, hpr, hseg, scan_append, scan_append]
  apply scan_flatten_settle
  · intro p hp
    obtain ⟨f, hf, rfl⟩ := List.mem_map.1 hp
    exact hF f hf
  · apply scan_nonspace a b sp hsp
    have := (calm_iff a b head).1 hhead 0 (by omega)
    omega

/-! ## The vocabulary of a label -/

theorem mem_ite_append {c : Prop} [Decidable c] {l : List Str} {x t : Str}
    (h : t ∈ (if c then l ++ [x] else l)) : t ∈ l ∨ (c ∧ t = x) := by
  split at h
  · rename_i hc
    rcases List.mem_append.1 h with h | h
    · exact Or.inl h
    · exact Or.inr ⟨hc, List.mem_singleton.1 h⟩
  · exact Or.inl h

/-- Every technique name is one of the eight names of the source. -/
theorem techniques_mem (scanFlags : List Char) (t : Str) (ht : t ∈ techniques scanFlags) :
    t ∈ ["SYN".toList, "Connect".toList, "ACK".toList, "Null".toList, "FIN".toList,
      "Xmas".toList, "Window".toList, "Maimon".toList] := by
  simp only [techniques] at ht
  rcases mem_ite_append ht with ht | ⟨_, rfl⟩
  rcases mem_ite_append ht with ht | ⟨_, rfl⟩
  rcases mem_ite_append ht with ht | ⟨_, rfl⟩
  rcases mem_ite_append ht with ht | ⟨_, rfl⟩
  rcases mem_ite_append ht with ht | ⟨_, rfl⟩
  rcases mem_ite_append ht with ht | ⟨_, rfl⟩
  rcases mem_ite_append ht with ht | ⟨_, rfl⟩
  rcases mem_ite_append ht with ht | ⟨_, rfl⟩
  · cases ht
  all_goals decide

/-- Every protocol name is one of the five names of the source, and `IP Protocol`
is there only when `O` is a group letter. -/
theorem protocols_mem (scanFlags : List Char) (p : Str) (hp : p ∈ protocols scanFlags) :
    p ∈ ["UDP".toList, "TCP".toList, "SCTP".toList, "SCTP Cookie Echo".toList] ∨
      (p = "IP Protocol".toList ∧ 'O' ∈ scanFlags) := by
  simp only [protocols] at hp
  rcases mem_ite_append hp with hp | ⟨_, rfl⟩
  · rcases mem_ite_append hp with hp | ⟨hO, rfl⟩
    · rcases mem_ite_append hp with hp | ⟨_, rfl⟩
      · rcases mem_ite_append hp with hp | ⟨_, rfl⟩
        · left
          split at hp
          · split at hp
            · simp only [List.nil_append, List.singleton_append, List.mem_cons,
                List.mem_singleton, List.not_mem_nil, or_false] at hp
              rcases hp with rfl | rfl <;> decide
            · simp only [List.nil_append, List.mem_singleton] at hp
              subst hp; decide
          · split at hp
            · simp only [List.nil_append, List.mem_singleton] at hp
              subst hp; decide
            · cases hp
        · left; decide
      · left; decide
    · exact Or.inr ⟨rfl, (hasFlag_iff _ _).1 hO⟩
  · left; decide

/-- The features appended to a label are among four fixed texts, and without
standalone `-O` and `-A` among the first two. -/
theorem finalFeatures_mem (command : Str) (scanFlags : List Char) :
    (∀ f ∈ finalFeatures (features command scanFlags),
      f ∈ ["Script Scan".toList, "Version Detection".toList, "OS Detection".toList,
        "OS + Version Detection".toList]) ∧
    (hasStandaloneFlag command "-O".toList = false →
      hasStandaloneFlag command "-A".toList = false →
      ∀ f ∈ finalFeatures (features command scanFlags),
        f ∈ ["Script Scan".toList, "Version Detection".toList]) := by
  unfold features
  cases hasFlag scanFlags 'C' <;> cases hasFlag scanFlags 'V'
    <;> cases hasStandaloneFlag command "-O".toList
    <;> cases hasStandaloneFlag command "-A".toList <;> decide

theorem mem_strJoin_occurs (sep : Str) (l : List Str) (p : Str) (hp : p ∈ l) :
    p <:+: strJoin l sep := by
  induction l with
  | nil => cases hp
  | cons x rest ih =>
    cases rest with
    | nil =>
      rw [List.mem_singleton] at hp
      subst hp
      exact List.infix_refl _
    | cons y rest =>
      rw [strJoin_cons_cons]
      rcases List.mem_cons.1 hp with rfl | hp
      · exact ⟨[], sep ++ strJoin (y :: rest) sep, by simp⟩
      · exact (ih hp).trans (List.suffix_append _ _).isInfix

theorem protocol_infix_label (command : Str) (p : Str)
    (hp : p ∈ protocols (parseScanFlags command)) (hne : p ≠ "TCP".toList) :
    p <:+: determineScanType command := by
  have hnil : protocols (parseScanFlags command) ≠ [] := List.ne_nil_of_mem hp
  have hpart : p ∈ protocolParts (techniques (parseScanFlags command))
      (protocols (parseScanFlags command)) := by
    rw [protocolParts_eq_map]
    refine List.mem_map.2 ⟨p, hp, ?_⟩
    unfold specRenderProtocol
    rw [if_neg (fun h => hne h.1)]
  rw [determineScanType_eq, firstSegment, if_pos (List.length_pos.2 hnil)]
  exact (mem_strJoin_occurs " + ".toList _ p hpart).trans
    ⟨[], " ".toList ++ getPortRange command ++
      ((finalFeatures (features command (parseScanFlags command))).map
        (fun f => ", ".toList ++ f)).flatten, by simp⟩

theorem feature_infix_label (command : Str) (f : Str)
    (hf : f ∈ finalFeatures (features command (parseScanFlags command))) :
    f <:+: determineScanType command := by
  rw [determineScanType_eq]
  obtain ⟨l1, l2, h⟩ := List.append_of_mem hf
  rw [h]
  simp only [List.map_append, List.map_cons, List.flatten_append, List.flatten_cons]
  exact ⟨firstSegment (protocols (parseScanFlags command))
      (techniques (parseScanFlags command)) (getPortRange command) ++
      (l1.map (fun f => ", ".toList ++ f)).flatten ++ ", ".toList,
    (l2.map (fun f => ", ".toList ++ f)).flatten, by simp⟩

/-- Without the group letter `O`, the text `IP ` occurs nowhere in the label. -/
theorem no_ip_in_label (command : Str) (hO : 'O' ∉ parseScanFlags command) :
    ¬ "IP ".toList <:+: determineScanType command := by
  intro h
  have h3 := scan_of_occurrence 'I' 'P' (by decide) (by decide) 0 _ h
  have hle := scan_label_le 'I' 'P' command (by decide)
    (fun p hp => by
      rcases protocols_mem _ p hp with hm | ⟨_, hO'⟩
      · exact (by decide : ∀ p ∈ ["UDP".toList, "TCP".toList, "SCTP".toList,
          "SCTP Cookie Echo".toList], calm 'I' 'P' p = true) p hm
      · exact absurd hO' hO)
    (fun t ht => (by decide : ∀ t ∈ ["SYN".toList, "Connect".toList, "ACK".toList,
        "Null".toList, "FIN".toList, "Xmas".toList, "Window".toList, "Maimon".toList],
        calm 'I' 'P' t = true) t (techniques_mem _ t ht))
    (fun f hf => (by decide : ∀ f ∈ ["Script Scan".toList, "Version Detection".toList,
        "OS Detection".toList, "OS + Version Detection".toList],
        settle 'I' 'P' (", ".toList ++ f) = true) f ((finalFeatures_mem command _).1 f hf))
  omega

/-- Without standalone `-O` and `-A`, the text `OS ` occurs nowhere in the label. -/
theorem no_os_in_label (command : Str)
    (hO : hasStandaloneFlag command "-O".toList = false)
    (hA : hasStandaloneFlag command "-A".toList = false) :
    ¬ "OS ".toList <:+: determineScanType command := by
  intro h
  have h3 := scan_of_occurrence 'O' 'S' (by decide) (by decide) 0 _ h
  have hle := scan_label_le 'O' 'S' command (by decide)
    (fun p hp => by
      rcases protocols_mem _ p hp with hm | ⟨rfl, _⟩
      · exact (by decide : ∀ p ∈ ["UDP".toList, "TCP".toList, "SCTP".toList,
          "SCTP Cookie Echo".toList], calm 'O' 'S' p = true) p hm
      · decide)
    (fun t ht => (by decide : ∀ t ∈ ["SYN".toList, "Connect".toList, "ACK".toList,
        "Null".toList, "FIN".toList, "Xmas".toList, "Window".toList, "Maimon".toList],
        calm 'O' 'S' t = true) t (techniques_mem _ t ht))
    (fun f hf => (by decide : ∀ f ∈ ["Script Scan".toList, "Version Detection".toList],
        settle 'O' 'S' (", ".toList ++ f) = true) f
        ((finalFeatures_mem command _).2 hO hA f hf))
  omega

theorem protocols_ip_iff (scanFlags : List Char) :
    "IP Protocol".toList ∈ protocols scanFlags ↔ 'O' ∈ scanFlags := by
  rw [← hasFlag_iff]
  unfold protocols
  cases hasFlag scanFlags 'U' <;> cases hasTCPTechnique scanFlags
    <;> cases hasFlag scanFlags 'Y' <;> cases hasFlag scanFlags 'Z'
    <;> cases hasFlag scanFlags 'O' <;> cases hasFlag scanFlags 'V'
    <;> cases hasFlag scanFlags 'C' <;> decide

theorem finalFeatures_os_iff (command : Str) (scanFlags : List Char) :
    ("OS Detection".toList ∈ finalFeatures (features command scanFlags) ∨
      "OS + Version Detection".toList ∈ finalFeatures (features command scanFlags))
      ↔ (hasStandaloneFlag command "-O".toList = true ∨
          hasStandaloneFlag command "-A".toList = true) := by
  unfold features
  cases hasFlag scanFlags 'C' <;> cases hasFlag scanFlags 'V'
    <;> cases hasStandaloneFlag command "-O".toList
    <;> cases hasStandaloneFlag command "-A".toList <;> decide

/-- C7: the label names `IP Protocol` (in its protocol list, and as text) exactly
when `O` is a group letter, and carries an OS-detection feature (`OS Detection` or
`OS + Version Detection`, in its feature list, and as text) exactly when standalone
`-O` or standalone `-A` is detected; `nmap -sO 10.0.0.1` is labelled
`IP Protocol Top 1000` and `nmap -O 10.0.0.1` is labelled
`TCP Top 1000, OS Detection`. -/
theorem ip_protocol_and_os_detection_separate :
    (∀ command : Str,
      ("IP Protocol".toList ∈ protocols (parseScanFlags command)
        ↔ 'O' ∈ parseScanFlags command) ∧
      ("IP Protocol".toList <:+: determineScanType command
        ↔ 'O' ∈ parseScanFlags command) ∧
      (("OS Detection".toList ∈ finalFeatures (features command (parseScanFlags command)) ∨
        "OS + Version Detection".toList ∈
          finalFeatures (features command (parseScanFlags command)))
        ↔ (hasStandaloneFlag command "-O".toList = true ∨
            hasStandaloneFlag command "-A".toList = true)) ∧
      (("OS Detection".toList <:+: determineScanType command ∨
        "OS + Version Detection".toList <:+: determineScanType command)
        ↔ (hasStandaloneFlag command "-O".toList = true ∨
            hasStandaloneFlag command "-A".toList = true))) ∧
    determineScanType "nmap -sO 10.0.0.1".toList = "IP Protocol Top 1000".toList ∧
    hasStandaloneFlag "nmap -sO 10.0.0.1".toList "-O".toList = false ∧
    determineScanType "nmap -O 10.0.0.1".toList = "TCP Top 1000, OS Detection".toList ∧
    parseScanFlags "nmap -O 10.0.0.1".toList = [] := by
  refine ⟨fun command => ⟨protocols_ip_iff _, ⟨?_, ?_⟩, finalFeatures_os_iff _ _, ⟨?_, ?_⟩⟩,
    by decide, by decide, by decide, by decide⟩
  · intro h
    by_contra hO
    exact no_ip_in_label command hO
      (List.IsInfix.trans ⟨[], "Protocol".toList, rfl⟩ h)
  · intro hO
    exact protocol_infix_label command _ ((protocols_ip_iff _).2 hO) (by decide)
  · intro h
    by_contra hno
    rw [not_or, Bool.not_eq_true, Bool.not_eq_true] at hno
    rcases h with h | h
    · exact no_os_in_label command hno.1 hno.2
        (List.IsInfix.trans ⟨[], "Detection".toList, rfl⟩ h)
    · exact no_os_in_label command hno.1 hno.2
        (List.IsInfix.trans ⟨[], "+ Version Detection".toList, rfl⟩ h)
  · intro h
    rcases (finalFeatures_os_iff command _).2 h with h | h
    · exact Or.inl (feature_infix_label command _ h)
    · exact Or.inr (feature_infix_label command _ h)

/-! ## Commands in which nothing is detected -/

theorem protocols_eq_nil (scanFlags : List Char)
    (hP : ∀ x ∈ ['U', 'Y', 'Z', 'O', 'V', 'C'], x ∉ scanFlags)
    (hT : ∀ x ∈ ['T', 'S', 'A', 'N', 'F', 'X', 'W', 'M'], x ∉ scanFlags) :
    protocols scanFlags = [] := by
  unfold protocols
  simp only [List.mem_cons, List.mem_singleton, forall_eq_or_imp, forall_eq,
    List.not_mem_nil, false_implies, implies_true, and_true] at hP
  obtain ⟨hU, hY, hZ, hO, hV, hC⟩ := hP
  simp only [hasTCPTechnique_eq_false _ hT, (hasFlag_eq_false_iff _ _).2 hU,
    (hasFlag_eq_false_iff _ _).2 hY, (hasFlag_eq_false_iff _ _).2 hZ,
    (hasFlag_eq_false_iff _ _).2 hO, (hasFlag_eq_false_iff _ _).2 hV,
    (hasFlag_eq_false_iff _ _).2 hC, Bool.false_eq_true, if_false, Bool.or_self,
    and_false]

theorem getPortRange_default_of_guards (command : Str)
    (hall : ¬ "-p-".toList <:+: command)
    (htop : (findTopPorts command).isSome = false)
    (hF : hasStandaloneFlag command "-F".toList = false)
    (hp : ¬ " -p".toList <:+: command) :
    getPortRange command = "Top 1000".toList := by
  unfold getPortRange
  rw [if_neg (fun h => hall ((strContains_iff _ _).1 h)), topPorts_rule_none _ htop]
  simp only [hF, Bool.false_eq_true, if_false]
  rw [if_neg (fun h => hp ((strContains_iff _ _).1 h))]

theorem determineScanType_nothing_detected (command : Str)
    (hP : ∀ x ∈ ['U', 'Y', 'Z', 'O', 'V', 'C'], x ∉ parseScanFlags command)
    (hT : ∀ x ∈ ['T', 'S', 'A', 'N', 'F', 'X', 'W', 'M'], x ∉ parseScanFlags command)
    (hO : hasStandaloneFlag command "-O".toList = false)
    (hA : hasStandaloneFlag command "-A".toList = false)
    (hR : getPortRange command = "Top 1000".toList) :
    determineScanType command = "TCP Top 1000".toList := by
  have hC : hasFlag (parseScanFlags command) 'C' = false :=
    (hasFlag_eq_false_iff _ _).2 (hP 'C' (by decide))
  have hV : hasFlag (parseScanFlags command) 'V' = false :=
    (hasFlag_eq_false_iff _ _).2 (hP 'V' (by decide))
  have hfeat : features command (parseScanFlags command) = [] := by
    unfold features
    simp only [hC, hV, hO, hA, Bool.or_self, Bool.false_eq_true, if_false]
  rw [determineScanType_eq, protocols_eq_nil _ hP hT, techniques_eq_nil _ hT, hfeat, hR]
  rfl

/-- C3: a command without any `-` character, the empty command included, is labelled
exactly `TCP Top 1000`; more generally so is every command in which no flag is
detected: no recognised letter in an `-s` group, no standalone `-O`, `-A`, `-F`, no
`-p-`, no `--top-ports` match and no ` -p`. -/
theorem determineScanType_no_flags :
    (∀ command : Str, '-' ∉ command → determineScanType command = "TCP Top 1000".toList) ∧
    (∀ command : Str,
      (∀ x ∈ ['U', 'Y', 'Z', 'O', 'V', 'C'], x ∉ parseScanFlags command) →
      (∀ x ∈ ['T', 'S', 'A', 'N', 'F', 'X', 'W', 'M'], x ∉ parseScanFlags command) →
      (∀ f ∈ ["-O".toList, "-A".toList, "-F".toList], hasStandaloneFlag command f = false) →
      ¬ "-p-".toList <:+: command →
      (¬ ∃ (w : Str) (d : Char), w ≠ [] ∧ (∀ c ∈ w, isSpace c = true) ∧ isDigit d = true ∧
        "--top-ports".toList ++ w ++ [d] <:+: command) →
      ¬ " -p".toList <:+: command →
      determineScanType command = "TCP Top 1000".toList) := by
  constructor
  · intro command h
    have hflags : parseScanFlags command = [] :=
      parseScanFlags_eq_nil_of_not_contains command (fun hi => h (hi.subset (by decide)))
    exact determineScanType_nothing_detected command
      (by rw [hflags]; exact fun x _ hx => absurd hx (List.not_mem_nil x))
      (by rw [hflags]; exact fun x _ hx => absurd hx (List.not_mem_nil x))
      (hasStandaloneFlag_eq_false_of_not_mem command _ '-' (by decide) h)
      (hasStandaloneFlag_eq_false_of_not_mem command _ '-' (by decide) h)
      (getPortRange_of_no_dash command h)
  · intro command hP hT hS hall htop hp
    have htop' : (findTopPorts command).isSome = false := by
      rw [Bool.eq_false_iff]
      exact fun h => htop ((findTopPorts_isSome_iff _).1 h)
    exact determineScanType_nothing_detected command hP hT (hS _ (by decide))
      (hS _ (by decide))
      (getPortRange_default_of_guards command hall htop' (hS _ (by decide)) hp)

theorem determineScanType_no_flags_witness :
    determineScanType "".toList = "TCP Top 1000".toList ∧
    determineScanType "nmap 192.168.1.1".toList = "TCP Top 1000".toList ∧
    determineScanType "nmap my-server.example.com".toList = "TCP Top 1000".toList :=
  ⟨determineScanType_no_flags.1 _ (by decide), determineScanType_no_flags.1 _ (by decide),
    determineScanType_no_flags.2 "nmap my-server.example.com".toList (by decide) (by decide)
      (by decide) (fun h => absurd ((strContains_iff _ _).2 h) (by decide))
      (fun h => absurd ((findTopPorts_isSome_iff _).2 h) (by decide))
      (fun h => absurd ((strContains_iff _ _).2 h) (by decide))⟩

/-! ## `getPortRange`: rules 4 and 5 -/

theorem portSpecAt_isSome_iff (t : Str) :
    (portSpecAt t).isSome = true ↔
      ∃ (w : Str) (c : Char), (∀ x ∈ w, isSpace x = true) ∧ isSpace c = false ∧
        "-p".toList ++ w ++ [c] <+: t := by
  unfold portSpecAt
  constructor
  · intro h
    split at h
    · rename_i hp
      obtain ⟨r, rfl⟩ := (hasPrefix_iff _ _).1 hp
      have e : ("-p".toList ++ r).drop 2 = r := List.drop_left "-p".toList r
      simp only [e] at h
      split at h
      · rename_i hne
        cases hs : (r.dropWhile isSpace).takeWhile (fun c => !isSpace c) with
        | nil => exact absurd hs hne
        | cons c cs =>
          have hc : (!isSpace c) = true :=
            List.mem_takeWhile_imp (p := fun c => !isSpace c) (l := r.dropWhile isSpace)
              (hs ▸ List.mem_cons_self c cs)
          refine ⟨r.takeWhile isSpace, c, fun x hx => List.mem_takeWhile_imp hx,
            by simpa using hc, ?_⟩
          refine ⟨cs ++ (r.dropWhile isSpace).dropWhile (fun c => !isSpace c), ?_⟩
          have h1 := List.takeWhile_append_dropWhile (fun c => !isSpace c) (r.dropWhile isSpace)
          have h2 := List.takeWhile_append_dropWhile isSpace r
          rw [hs] at h1
          calc "-p".toList ++ r.takeWhile isSpace ++ [c] ++
                (cs ++ (r.dropWhile isSpace).dropWhile (fun c => !isSpace c))
              = "-p".toList ++ (r.takeWhile isSpace ++
                  (c :: cs ++ (r.dropWhile isSpace).dropWhile (fun c => !isSpace c))) := by
                simp
            _ = "-p".toList ++ r := by rw [h1, h2]
      · simp at h
    · simp at h
  · rintro ⟨w, c, hw, hc, rest, rfl⟩
    have e : "-p".toList ++ w ++ [c] ++ rest = "-p".toList ++ (w ++ (c :: rest)) := by simp
    have hp : hasPrefix ("-p".toList ++ (w ++ (c :: rest))) "-p".toList = true :=
      (hasPrefix_iff _ _).2 (List.prefix_append _ _)
    have e2 : ("-p".toList ++ (w ++ (c :: rest))).drop 2 = w ++ (c :: rest) :=
      List.drop_left "-p".toList _
    rw [e, if_pos hp]
    simp only [e2, List.dropWhile_append_of_pos hw, List.dropWhile_cons, List.takeWhile_cons, hc]
    simp [hc]

theorem findPortSpec_isSome_iff_suffix (s : Str) :
    (findPortSpec s).isSome = true ↔ ∃ t, t <:+ s ∧ (portSpecAt t).isSome = true := by
  induction s with
  | nil =>
    simp only [findPortSpec, List.suffix_nil]
    constructor
    · intro h; exact ⟨[], rfl, h⟩
    · rintro ⟨t, rfl, h⟩; exact h
  | cons c cs ih =>
    simp only [findPortSpec, List.suffix_cons_iff]
    cases hc : portSpecAt (c :: cs) with
    | some d =>
      simp only [Option.isSome_some, true_iff]
      exact ⟨c :: cs, Or.inl rfl, by rw [hc]; rfl⟩
    | none =>
      simp only [ih]
      constructor
      · rintro ⟨t, ht, h⟩; exact ⟨t, Or.inr ht, h⟩
      · rintro ⟨t, rfl | ht, h⟩
        · rw [hc] at h; simp at h
        · exact ⟨t, ht, h⟩

/-- The regexp `-p\s*([^\s]+)` matches somewhere in `s` exactly when `s` contains `-p`,
any number of whitespace characters and a non-whitespace character, in a row. -/
theorem findPortSpec_isSome_iff (s : Str) :
    (findPortSpec s).isSome = true ↔
      ∃ (w : Str) (c : Char), (∀ x ∈ w, isSpace x = true) ∧ isSpace c = false ∧
        "-p".toList ++ w ++ [c] <:+: s := by
  rw [findPortSpec_isSome_iff_suffix]
  constructor
  · rintro ⟨t, ht, h⟩
    obtain ⟨w, c, hw, hc, hp⟩ := (portSpecAt_isSome_iff t).1 h
    exact ⟨w, c, hw, hc, List.infix_iff_prefix_suffix.2 ⟨t, hp, ht⟩⟩
  · rintro ⟨w, c, hw, hc, hi⟩
    obtain ⟨t, hp, ht⟩ := List.infix_iff_prefix_suffix.1 hi
    exact ⟨t, ht, (portSpecAt_isSome_iff t).2 ⟨w, c, hw, hc, hp⟩⟩

/-- C11 (as stated, refuted): `nmap -p` matches none of the rules 1-4 (its `-p` is
followed by nothing) and the port range is `Custom Ports`, not the default. -/
theorem getPortRange_default_counterexample :
    ¬ "-p-".toList <:+: "nmap -p".toList ∧
    (findTopPorts "nmap -p".toList).isSome = false ∧
    hasStandaloneFlag "nmap -p".toList "-F".toList = false ∧
    (findPortSpec "nmap -p".toList).isSome = false ∧
    getPortRange "nmap -p".toList = "Custom Ports".toList ∧
    getPortRange "nmap -p".toList ≠ "Top 1000".toList := by
  refine ⟨fun h => absurd ((strContains_iff _ _).2 h) (by decide), by decide, by decide,
    by decide, by decide, by decide⟩

/-- C11 (amended): a command that matches none of the rules 1-4 and does not contain
` -p` (a space followed by `-p`) has the default port range `Top 1000`; when such a
command contains ` -p`, the port range is `Custom Ports`. -/
theorem getPortRange_default (command : Str)
    (hall : ¬ "-p-".toList <:+: command)
    (htop : ¬ ∃ (w : Str) (d : Char), w ≠ [] ∧ (∀ c ∈ w, isSpace c = true) ∧
      isDigit d = true ∧ "--top-ports".toList ++ w ++ [d] <:+: command)
    (hF : hasStandaloneFlag command "-F".toList = false)
    (hspec : ¬ ∃ (w : Str) (c : Char), (∀ x ∈ w, isSpace x = true) ∧ isSpace c = false ∧
      "-p".toList ++ w ++ [c] <:+: command) :
    (¬ " -p".toList <:+: command → getPortRange command = "Top 1000".toList) ∧
    (" -p".toList <:+: command → getPortRange command = "Custom Ports".toList) := by
  have htop' : (findTopPorts command).isSome = false := by
    rw [Bool.eq_false_iff]
    exact fun h => htop ((findTopPorts_isSome_iff _).1 h)
  have hnone : findPortSpec command = none := by
    cases hf : findPortSpec command with
    | none => rfl
    | some sp =>
      exact absurd ((findPortSpec_isSome_iff _).1 (by rw [hf]; rfl)) hspec
  constructor
  · intro hp
    exact getPortRange_default_of_guards command hall htop' hF hp
  · intro hp
    unfold getPortRange
    rw [if_neg (fun h => hall ((strContains_iff _ _).1 h)), topPorts_rule_none _ htop']
    simp only [hF, Bool.false_eq_true, if_false, (strContains_iff _ _).2 hp, if_true, hnone]

theorem getPortRange_default_witness :
    getPortRange "nmap -sV 10.0.0.1".toList = "Top 1000".toList ∧
    getPortRange "nmap -sV -p ".toList = "Custom Ports".toList :=
  ⟨(getPortRange_default "nmap -sV 10.0.0.1".toList
      (fun h => absurd ((strContains_iff _ _).2 h) (by decide))
      (fun h => absurd ((findTopPorts_isSome_iff _).2 h) (by decide))
      (by decide)
      (fun h => absurd ((findPortSpec_isSome_iff _).2 h) (by decide))).1
      (fun h => absurd ((strContains_iff _ _).2 h) (by decide)),
   (getPortRange_default "nmap -sV -p ".toList
      (fun h => absurd ((strContains_iff _ _).2 h) (by decide))
      (fun h => absurd ((findTopPorts_isSome_iff _).2 h) (by decide))
      (by decide)
      (fun h => absurd ((findPortSpec_isSome_iff _).2 h) (by decide))).2
      ((strContains_iff _ _).1 (by decide))⟩

/-! ## `getPortRange`: rules 2 and 3 -/

theorem isDigit_dash : isDigit '-' = false := by decide

theorem head_not_dash (w : Str) (d : Char) (r : Str) (hw : ∀ c ∈ w, isSpace c = true)
    (hd : isDigit d = true) (tl : Str) : w ++ [d] ++ r ≠ '-' :: tl := by
  intro h
  cases w with
  | nil =>
    simp only [List.nil_append, List.singleton_append, List.cons.injEq] at h
    rw [h.1, isDigit_dash] at hd
    exact absurd hd (by decide)
  | cons x w' =>
    simp only [List.cons_append, List.cons.injEq] at h
    have := hw x (List.mem_cons_self x w')
    rw [h.1, isSpace_dash] at this
    exact absurd this (by decide)

/-- A match of `--top-ports\s+\d` that starts before an occurrence of `--top-ports`
ends before it: the two cannot overlap. -/
theorem topPorts_match_before (u t' : Str) (w : Str) (d : Char)
    (hw : ∀ c ∈ w, isSpace c = true) (hd : isDigit d = true)
    (h : "--top-ports".toList ++ w ++ [d] <+: u ++ ("--top-ports".toList ++ t'))
    (hu : u ≠ []) : "--top-ports".toList ++ w ++ [d] <+: u := by
  obtain ⟨r, hr⟩ := h
  rcases List.append_eq_append_iff.1 hr with ⟨a, ha, _⟩ | ⟨c, hc, ht⟩
  · exact ⟨a, ha.symm⟩
  · cases c with
    | nil => rw [List.append_nil] at hc; exact ⟨[], by rw [List.append_nil, hc]⟩
    | cons x c' =>
      exfalso
      -- `x :: c'` starts the later occurrence, so `x = '-'`
      have hx : x = '-' := by
        have := congrArg List.head? ht
        simpa using this.symm
      subst hx
      have hc2 : "--top-ports".toList ++ (w ++ [d]) = u ++ '-' :: c' := by
        rw [← hc]; simp
      rcases List.append_eq_append_iff.1 hc2 with ⟨a, ha, hb⟩ | ⟨b, hb, hwd⟩
      · -- `u` reaches past the literal: the dash lies in `w ++ [d]`
        have : w ++ [d] ++ [] = a ++ '-' :: c' := by simpa using hb
        cases a with
        | nil =>
          exact head_not_dash w d [] hw hd c' (by simpa using this)
        | cons y a' =>
          -- the dash is inside `w ++ [d]`
          have hmem : '-' ∈ w ++ [d] := by
            have : '-' ∈ w ++ [d] ++ [] := by rw [this]; simp
            simpa using this
          rcases List.mem_append.1 hmem with h1 | h1
          · have := hw _ h1
            rw [isSpace_dash] at this
            exact absurd this (by decide)
          · rw [List.mem_singleton] at h1
            rw [← h1, isDigit_dash] at hd
            exact absurd hd (by decide)
      · -- `u` ends inside the literal: `"--top-ports" = u ++ b`
        have hb' : b = ("--top-ports".toList).drop u.length := by
          have := congrArg (List.drop u.length) hb
          rw [List.drop_left] at this
          exact this.symm
        have hlen : u.length + b.length = 11 := by
          have := congrArg List.length hb
          simp only [List.length_append] at this
          have h11 : "--top-ports".toList.length = 11 := rfl
          omega
        have hu1 : 1 ≤ u.length := List.length_pos.2 hu
        have ht2 : "--top-ports".toList ++ t' = b ++ (w ++ [d] ++ r) := by
          rw [ht, hwd]; simp
        have hk : u.length ≤ 11 := by omega
        generalize u.length = k at hb' hu1 hk
        interval_cases k
        all_goals first
          | (subst hb'
             simp [show "--top-ports".toList = ['-','-','t','o','p','-','p','o','r','t','s']
               from rfl] at ht2
             done)
          | (subst hb'
             exact head_not_dash w d r hw hd ("-top-ports".toList ++ t')
               (by simpa using ht2.symm))
theorem findTopPorts_skip (pre t : Str)
    (h : ∀ u, u ≠ [] → u <:+ pre → topPortsAt (u ++ t) = none) :
    findTopPorts (pre ++ t) = findTopPorts t := by
  induction pre with
  | nil => rfl
  | cons c pre' ih =>
    rw [List.cons_append, findTopPorts]
    have h0 := h (c :: pre') (List.cons_ne_nil _ _) (List.suffix_refl _)
    rw [List.cons_append] at h0
    rw [h0]
    exact ih (fun u hu hs => h u hu (List.suffix_cons_iff.2 (Or.inr hs)))

theorem findTopPorts_of_head (t n : Str) (h : topPortsAt t = some n) :
    findTopPorts t = some n := by
  cases t with
  | nil => exact h
  | cons c cs => rw [findTopPorts, h]

theorem topPortsAt_match (ws ds rest : Str) (hne : ws ≠ [])
    (hws : ∀ c ∈ ws, isSpace c = true) (hds : ds ≠ [])
    (hdig : ∀ c ∈ ds, isDigit c = true)
    (hrest : ∀ c, rest.head? = some c → isDigit c = false) :
    topPortsAt ("--top-ports".toList ++ ws ++ ds ++ rest) = some ds := by
  unfold topPortsAt
  have e : "--top-ports".toList ++ ws ++ ds ++ rest
      = "--top-ports".toList ++ (ws ++ (ds ++ rest)) := by simp
  have hp : hasPrefix ("--top-ports".toList ++ (ws ++ (ds ++ rest))) "--top-ports".toList
      = true := (hasPrefix_iff _ _).2 (List.prefix_append _ _)
  have e2 : ("--top-ports".toList ++ (ws ++ (ds ++ rest))).drop 11 = ws ++ (ds ++ rest) :=
    List.drop_left "--top-ports".toList _
  have hd0 : (ds ++ rest).dropWhile isSpace = ds ++ rest := by
    cases ds with
    | nil => exact absurd rfl hds
    | cons a ds' =>
      rw [List.cons_append, List.dropWhile_cons,
        isSpace_of_isDigit a (hdig a (List.mem_cons_self a ds'))]
      rfl
  have ht0 : (ds ++ rest).takeWhile isSpace = [] := by
    cases ds with
    | nil => exact absurd rfl hds
    | cons a ds' =>
      rw [List.cons_append, List.takeWhile_cons,
        isSpace_of_isDigit a (hdig a (List.mem_cons_self a ds'))]
      rfl
  have ht1 : (ds ++ rest).takeWhile isDigit = ds := by
    rw [List.takeWhile_append_of_pos hdig]
    cases rest with
    | nil => simp
    | cons b r =>
      rw [List.takeWhile_cons, hrest b rfl]
      simp
  rw [e, if_pos hp]
  simp only [e2, List.takeWhile_append_of_pos hws, List.dropWhile_append_of_pos hws, hd0, ht0,
    ht1, List.append_nil]
  rw [if_pos ⟨List.length_pos.2 hne, hds⟩]

/-- C12: without `-p-`, the first `--top-ports` match decides: the port range is
`Top ` followed by the digits as written (`--top-ports 0100` gives `Top 0100`),
whatever standalone `-F` or `-p` specification is also present; without such a
match, a standalone `-F` gives `Top 100`, whatever `-p` specification is also
present. -/
theorem getPortRange_rule_order :
    (∀ pre ws ds rest : Str,
      ¬ "-p-".toList <:+: pre ++ "--top-ports".toList ++ ws ++ ds ++ rest →
      (¬ ∃ (w : Str) (d : Char), w ≠ [] ∧ (∀ c ∈ w, isSpace c = true) ∧ isDigit d = true ∧
        "--top-ports".toList ++ w ++ [d] <:+: pre) →
      ws ≠ [] → (∀ c ∈ ws, isSpace c = true) →
      ds ≠ [] → (∀ c ∈ ds, isDigit c = true) →
      (∀ c, rest.head? = some c → isDigit c = false) →
      getPortRange (pre ++ "--top-ports".toList ++ ws ++ ds ++ rest) = "Top ".toList ++ ds) ∧
    (∀ command : Str,
      ¬ "-p-".toList <:+: command →
      (¬ ∃ (w : Str) (d : Char), w ≠ [] ∧ (∀ c ∈ w, isSpace c = true) ∧ isDigit d = true ∧
        "--top-ports".toList ++ w ++ [d] <:+: command) →
      hasStandaloneFlag command "-F".toList = true →
      getPortRange command = "Top 100".toList) ∧
    getPortRange "nmap --top-ports 0100 -F -p 22 10.0.0.1".toList = "Top 0100".toList ∧
    getPortRange "nmap -F -p 22 10.0.0.1".toList = "Top 100".toList ∧
    determineScanType "nmap -F -O 192.168.1.1".toList = "TCP Top 100, OS Detection".toList := by
  refine ⟨?_, ?_, by decide, by decide, by decide⟩
  · intro pre ws ds rest hall hfirst hne hws hds hdig hrest
    have hfind : findTopPorts (pre ++ "--top-ports".toList ++ ws ++ ds ++ rest) = some ds := by
      have e : pre ++ "--top-ports".toList ++ ws ++ ds ++ rest
          = pre ++ ("--top-ports".toList ++ ws ++ ds ++ rest) := by simp
      rw [e, findTopPorts_skip]
      · exact findTopPorts_of_head _ _ (topPortsAt_match ws ds rest hne hws hds hdig hrest)
      · intro u hu hsuf
        cases htp : topPortsAt (u ++ ("--top-ports".toList ++ ws ++ ds ++ rest)) with
        | none => rfl
        | some n =>
          exfalso
          obtain ⟨w, d, hw0, hw, hd, hp⟩ := (topPortsAt_isSome_iff _).1 (by rw [htp]; rfl)
          have e3 : "--top-ports".toList ++ ws ++ ds ++ rest
              = "--top-ports".toList ++ (ws ++ ds ++ rest) := by simp
          rw [e3] at hp
          exact hfirst ⟨w, d, hw0, hw, hd,
            (topPorts_match_before u _ w d hw hd hp hu).isInfix.trans hsuf.isInfix⟩
    have hc : strContains (pre ++ "--top-ports".toList ++ ws ++ ds ++ rest)
        "--top-ports".toList = true :=
      (strContains_iff _ _).2 ⟨pre, ws ++ ds ++ rest, by simp⟩
    unfold getPortRange
    rw [if_neg (fun h => hall ((strContains_iff _ _).1 h)), if_pos hc, hfind]
  · intro command hall htop hF
    have htop' : (findTopPorts command).isSome = false := by
      rw [Bool.eq_false_iff]
      exact fun h => htop ((findTopPorts_isSome_iff _).1 h)
    unfold getPortRange
    rw [if_neg (fun h => hall ((strContains_iff _ _).1 h)), topPorts_rule_none _ htop']
    simp only [hF, if_true]

theorem getPortRange_rule_order_witness :
    getPortRange ("nmap -F -p 22 ".toList ++ "--top-ports".toList ++ " ".toList ++ "500".toList
        ++ " 10.0.0.1".toList) = "Top ".toList ++ "500".toList ∧
    getPortRange "nmap -F -p 22 10.0.0.1".toList = "Top 100".toList :=
  ⟨getPortRange_rule_order.1 "nmap -F -p 22 ".toList " ".toList "500".toList " 10.0.0.1".toList
      (fun h => absurd ((strContains_iff _ _).2 h) (by decide))
      (fun h => absurd ((findTopPorts_isSome_iff _).2 h) (by decide))
      (by decide) (by decide) (by decide) (by decide) (by decide),
   getPortRange_rule_order.2.1 "nmap -F -p 22 10.0.0.1".toList
      (fun h => absurd ((strContains_iff _ _).2 h) (by decide))
      (fun h => absurd ((findTopPorts_isSome_iff _).2 h) (by decide))
      (by decide)⟩

/-! ## The protocol list, the technique list and the feature list -/

theorem any_technique_eq (scanFlags : List Char) :
    ['T', 'S', 'A', 'N', 'F', 'X', 'W', 'M'].any (hasFlag scanFlags)
      = hasTCPTechnique scanFlags := by
  unfold hasTCPTechnique
  simp only [List.any_cons, List.any_nil, Bool.or_false, Bool.or_assoc]

theorem protocols_eq_specProtocols (scanFlags : List Char) :
    protocols scanFlags = specProtocols scanFlags := by
  unfold protocols specProtocols
  rw [any_technique_eq]
  cases hasFlag scanFlags 'U' <;> cases hasTCPTechnique scanFlags
    <;> cases hasFlag scanFlags 'Y' <;> cases hasFlag scanFlags 'Z'
    <;> cases hasFlag scanFlags 'O' <;> cases hasFlag scanFlags 'V'
    <;> cases hasFlag scanFlags 'C' <;> rfl

theorem hasTCPTechnique_iff (scanFlags : List Char) :
    hasTCPTechnique scanFlags = true ↔
      ∃ x ∈ ['T', 'S', 'A', 'N', 'F', 'X', 'W', 'M'], x ∈ scanFlags := by
  rw [← any_technique_eq, List.any_eq_true]
  simp only [hasFlag_iff]

theorem protocols_sublist (fl : List Char) :
    List.Sublist (protocols fl)
      ["UDP".toList, "TCP".toList, "SCTP".toList, "SCTP Cookie Echo".toList,
        "IP Protocol".toList] := by
  simp only [protocols]
  cases hasFlag fl 'U' <;> cases hasTCPTechnique fl
    <;> cases hasFlag fl 'Y' <;> cases hasFlag fl 'Z'
    <;> cases hasFlag fl 'O' <;> cases hasFlag fl 'V'
    <;> cases hasFlag fl 'C' <;> decide

theorem protocols_udp_iff (fl : List Char) :
    "UDP".toList ∈ protocols fl ↔ hasFlag fl 'U' = true := by
  simp only [protocols]
  cases hasFlag fl 'U' <;> cases hasTCPTechnique fl
    <;> cases hasFlag fl 'Y' <;> cases hasFlag fl 'Z'
    <;> cases hasFlag fl 'O' <;> cases hasFlag fl 'V'
    <;> cases hasFlag fl 'C' <;> decide

theorem protocols_sctp_iff (fl : List Char) :
    "SCTP".toList ∈ protocols fl ↔ hasFlag fl 'Y' = true := by
  simp only [protocols]
  cases hasFlag fl 'U' <;> cases hasTCPTechnique fl
    <;> cases hasFlag fl 'Y' <;> cases hasFlag fl 'Z'
    <;> cases hasFlag fl 'O' <;> cases hasFlag fl 'V'
    <;> cases hasFlag fl 'C' <;> decide

theorem protocols_cookie_iff (fl : List Char) :
    "SCTP Cookie Echo".toList ∈ protocols fl ↔ hasFlag fl 'Z' = true := by
  simp only [protocols]
  cases hasFlag fl 'U' <;> cases hasTCPTechnique fl
    <;> cases hasFlag fl 'Y' <;> cases hasFlag fl 'Z'
    <;> cases hasFlag fl 'O' <;> cases hasFlag fl 'V'
    <;> cases hasFlag fl 'C' <;> decide

/-- `TCP` is listed exactly for a TCP technique letter, or by the `V`/`C` default when
no protocol letter is present. -/
theorem protocols_tcp_iff (fl : List Char) :
    "TCP".toList ∈ protocols fl ↔
      (hasTCPTechnique fl = true ∨
        ((hasFlag fl 'U' = false ∧ hasFlag fl 'Y' = false ∧ hasFlag fl 'Z' = false ∧
            hasFlag fl 'O' = false) ∧
          (hasFlag fl 'V' = true ∨ hasFlag fl 'C' = true))) := by
  simp only [protocols]
  cases hasFlag fl 'U' <;> cases hasTCPTechnique fl
    <;> cases hasFlag fl 'Y' <;> cases hasFlag fl 'Z'
    <;> cases hasFlag fl 'O' <;> cases hasFlag fl 'V'
    <;> cases hasFlag fl 'C' <;> decide

/-- C17: the protocol list is, in this order, `UDP` iff `U` is a group letter, `TCP`
iff one of `T S A N F X W M` is, `SCTP` iff `Y`, `SCTP Cookie Echo` iff `Z`,
`IP Protocol` iff `O`; when none of these applies and `V` or `C` is present it is the
single entry `TCP`.  `nmap -sY -sZ 192.168.1.1` is labelled
`SCTP + SCTP Cookie Echo Top 1000`. -/
theorem protocols_spec :
    (∀ command : Str,
      protocols (parseScanFlags command) = specProtocols (parseScanFlags command)) ∧
    (∀ command : Str,
      List.Sublist (protocols (parseScanFlags command))
        ["UDP".toList, "TCP".toList, "SCTP".toList, "SCTP Cookie Echo".toList,
          "IP Protocol".toList] ∧
      ("UDP".toList ∈ protocols (parseScanFlags command) ↔ 'U' ∈ parseScanFlags command) ∧
      ("SCTP".toList ∈ protocols (parseScanFlags command) ↔ 'Y' ∈ parseScanFlags command) ∧
      ("SCTP Cookie Echo".toList ∈ protocols (parseScanFlags command)
        ↔ 'Z' ∈ parseScanFlags command) ∧
      ("IP Protocol".toList ∈ protocols (parseScanFlags command)
        ↔ 'O' ∈ parseScanFlags command) ∧
      ("TCP".toList ∈ protocols (parseScanFlags command) ↔
        ((∃ x ∈ ['T', 'S', 'A', 'N', 'F', 'X', 'W', 'M'], x ∈ parseScanFlags command) ∨
          (('U' ∉ parseScanFlags command ∧ 'Y' ∉ parseScanFlags command ∧
              'Z' ∉ parseScanFlags command ∧ 'O' ∉ parseScanFlags command) ∧
            ('V' ∈ parseScanFlags command ∨ 'C' ∈ parseScanFlags command))))) ∧
    determineScanType "nmap -sY -sZ 192.168.1.1".toList
      = "SCTP + SCTP Cookie Echo Top 1000".toList := by
  refine ⟨fun command => protocols_eq_specProtocols _, fun command => ?_, by decide⟩
  generalize parseScanFlags command = fl
  refine ⟨protocols_sublist fl, ?_, ?_, ?_, protocols_ip_iff fl, ?_⟩
  · rw [protocols_udp_iff, hasFlag_iff]
  · rw [protocols_sctp_iff, hasFlag_iff]
  · rw [protocols_cookie_iff, hasFlag_iff]
  · rw [protocols_tcp_iff, hasTCPTechnique_iff]
    simp only [hasFlag_eq_false_iff, hasFlag_iff]

theorem techniques_eq_specTechniques (scanFlags : List Char) :
    techniques scanFlags = specTechniques scanFlags := by
  unfold techniques specTechniques techniqueTable
  simp only [List.filter_cons, List.filter_nil]
  cases hasFlag scanFlags 'S' <;> cases hasFlag scanFlags 'T'
    <;> cases hasFlag scanFlags 'A' <;> cases hasFlag scanFlags 'N'
    <;> cases hasFlag scanFlags 'F' <;> cases hasFlag scanFlags 'X'
    <;> cases hasFlag scanFlags 'W' <;> cases hasFlag scanFlags 'M' <;> rfl

theorem hasFlag_congr (f1 f2 : List Char) (h : ∀ x, x ∈ f1 ↔ x ∈ f2) (x : Char) :
    hasFlag f1 x = hasFlag f2 x := by
  rw [Bool.eq_iff_iff, hasFlag_iff, hasFlag_iff]
  exact h x

/-- C18: the technique list is the sub-sequence of `SYN, Connect, ACK, Null, FIN, Xmas,
Window, Maimon` selected by the group letters `S, T, A, N, F, X, W, M`; it depends
only on which letters are present, not on their order in the command, so
`nmap -sTS h` and `nmap -sST h` (and `nmap -sX -sA h` and `nmap -sA -sX h`) get the
same rendering. -/
theorem techniques_spec :
    (∀ command : Str,
      techniques (parseScanFlags command) = specTechniques (parseScanFlags command) ∧
      List.Sublist (techniques (parseScanFlags command))
        ["SYN".toList, "Connect".toList, "ACK".toList, "Null".toList, "FIN".toList,
          "Xmas".toList, "Window".toList, "Maimon".toList]) ∧
    (∀ c1 c2 : Str, (∀ x, x ∈ parseScanFlags c1 ↔ x ∈ parseScanFlags c2) →
      techniques (parseScanFlags c1) = techniques (parseScanFlags c2)) ∧
    determineScanType "nmap -sTS h".toList = "TCP (SYN/Connect) Top 1000".toList ∧
    determineScanType "nmap -sST h".toList = "TCP (SYN/Connect) Top 1000".toList ∧
    determineScanType "nmap -sX -sA h".toList = "TCP (ACK/Xmas) Top 1000".toList ∧
    determineScanType "nmap -sA -sX h".toList = "TCP (ACK/Xmas) Top 1000".toList := by
  refine ⟨fun command => ⟨techniques_eq_specTechniques _, ?_⟩, ?_, by decide, by decide,
    by decide, by decide⟩
  · rw [techniques_eq_specTechniques]
    unfold specTechniques
    exact (List.filter_sublist _).map _
  · intro c1 c2 h
    rw [techniques_eq_specTechniques, techniques_eq_specTechniques]
    unfold specTechniques
    congr 1
    apply List.filter_congr
    intro e _
    exact hasFlag_congr _ _ h e.1

theorem techniques_spec_witness :
    techniques (parseScanFlags "nmap -sTS h".toList)
      = techniques (parseScanFlags "nmap -sST h".toList) ∧
    techniques (parseScanFlags "nmap -sTS h".toList) = ["SYN".toList, "Connect".toList] :=
  ⟨techniques_spec.2.1 "nmap -sTS h".toList "nmap -sST h".toList
      (fun x => by
        have e1 : parseScanFlags "nmap -sTS h".toList = ['T', 'S'] := by decide
        have e2 : parseScanFlags "nmap -sST h".toList = ['S', 'T'] := by decide
        rw [e1, e2]
        simp only [List.mem_cons, List.mem_singleton, List.not_mem_nil, or_false]
        exact or_comm),
    by decide⟩

theorem finalFeatures_cases (command : Str) (scanFlags : List Char) :
    finalFeatures (features command scanFlags) ∈
      [[], ["Script Scan".toList], ["Version Detection".toList], ["OS Detection".toList],
        ["Script Scan".toList, "Version Detection".toList],
        ["Script Scan".toList, "OS Detection".toList],
        ["OS + Version Detection".toList],
        ["Script Scan".toList, "OS + Version Detection".toList]] := by
  unfold features
  cases hasFlag scanFlags 'C' <;> cases hasFlag scanFlags 'V'
    <;> cases hasStandaloneFlag command "-O".toList
    <;> cases hasStandaloneFlag command "-A".toList <;> decide

theorem finalFeatures_combined (command : Str) (scanFlags : List Char)
    (h : "OS Detection".toList ∈ features command scanFlags ∧
      "Version Detection".toList ∈ features command scanFlags) :
    (finalFeatures (features command scanFlags)).getLast?
      = some "OS + Version Detection".toList := by
  revert h
  unfold features
  cases hasFlag scanFlags 'C' <;> cases hasFlag scanFlags 'V'
    <;> cases hasStandaloneFlag command "-O".toList
    <;> cases hasStandaloneFlag command "-A".toList <;> decide

/-- C19: the features appended after the first segment are one of the eight listed
sequences; they hold no duplicate, never both `OS Detection` and
`Version Detection` (when both are detected the single entry
`OS + Version Detection` stands last instead), and `Script Scan`, when present, is
the first of them. -/
theorem finalFeatures_spec (command : Str) :
    determineScanType command =
      firstSegment (protocols (parseScanFlags command)) (techniques (parseScanFlags command))
          (getPortRange command) ++
        ((finalFeatures (features command (parseScanFlags command))).map
          (fun f => ", ".toList ++ f)).flatten ∧
    finalFeatures (features command (parseScanFlags command)) ∈
      [[], ["Script Scan".toList], ["Version Detection".toList], ["OS Detection".toList],
        ["Script Scan".toList, "Version Detection".toList],
        ["Script Scan".toList, "OS Detection".toList],
        ["OS + Version Detection".toList],
        ["Script Scan".toList, "OS + Version Detection".toList]] ∧
    (finalFeatures (features command (parseScanFlags command))).Nodup ∧
    ¬ ("OS Detection".toList ∈ finalFeatures (features command (parseScanFlags command)) ∧
      "Version Detection".toList ∈
        finalFeatures (features command (parseScanFlags command))) ∧
    (("OS Detection".toList ∈ features command (parseScanFlags command) ∧
        "Version Detection".toList ∈ features command (parseScanFlags command)) →
      (finalFeatures (features command (parseScanFlags command))).getLast?
        = some "OS + Version Detection".toList) ∧
    ("Script Scan".toList ∈ finalFeatures (features command (parseScanFlags command)) →
      (finalFeatures (features command (parseScanFlags command))).head?
        = some "Script Scan".toList) := by
  have hc := finalFeatures_cases command (parseScanFlags command)
  refine ⟨determineScanType_eq command, hc, ?_, ?_,
    finalFeatures_combined command (parseScanFlags command), ?_⟩
  all_goals
    revert hc
    generalize finalFeatures (features command (parseScanFlags command)) = ff
    intro hc
    simp only [List.mem_cons, List.mem_singleton, List.not_mem_nil, or_false] at hc
    rcases hc with rfl | rfl | rfl | rfl | rfl | rfl | rfl | rfl <;> decide

theorem techniques_ne_nil_iff (fl : List Char) :
    techniques fl ≠ [] ↔ hasTCPTechnique fl = true := by
  unfold techniques hasTCPTechnique
  cases hasFlag fl 'S' <;> cases hasFlag fl 'T'
    <;> cases hasFlag fl 'A' <;> cases hasFlag fl 'N'
    <;> cases hasFlag fl 'F' <;> cases hasFlag fl 'X'
    <;> cases hasFlag fl 'W' <;> cases hasFlag fl 'M' <;> decide

theorem tcp_mem_of_techniques (fl : List Char) (h : techniques fl ≠ []) :
    "TCP".toList ∈ protocols fl :=
  (protocols_tcp_iff fl).2 (Or.inl ((techniques_ne_nil_iff fl).1 h))

/-- C20: a non-empty technique list puts `TCP` into the protocol list, so the branch
for an empty protocol list with techniques is never taken and the empty-protocol
fallback is exactly `TCP ` followed by the port range; every technique name occurs in
the rendering `TCP (<t1>/<t2>/…)`, which occurs in the label. -/
theorem techniques_inside_tcp (command : Str) :
    (techniques (parseScanFlags command) ≠ [] →
      "TCP".toList ∈ protocols (parseScanFlags command)) ∧
    ¬ ((protocols (parseScanFlags command)).length = 0 ∧
        0 < (techniques (parseScanFlags command)).length) ∧
    ((protocols (parseScanFlags command)).length = 0 →
      firstSegment (protocols (parseScanFlags command)) (techniques (parseScanFlags command))
          (getPortRange command) = "TCP ".toList ++ getPortRange command) ∧
    (∀ t ∈ techniques (parseScanFlags command),
      t <:+: "TCP (".toList ++ strJoin (techniques (parseScanFlags command)) "/".toList
          ++ ")".toList ∧
      "TCP (".toList ++ strJoin (techniques (parseScanFlags command)) "/".toList
          ++ ")".toList <:+: determineScanType command) := by
  generalize hfl : parseScanFlags command = fl
  have hunreach : ¬ ((protocols fl).length = 0 ∧ 0 < (techniques fl).length) := by
    rintro ⟨hp, ht⟩
    have := tcp_mem_of_techniques fl (List.length_pos.1 ht)
    rw [List.length_eq_zero.1 hp] at this
    exact absurd this (List.not_mem_nil _)
  refine ⟨tcp_mem_of_techniques fl, hunreach, ?_, ?_⟩
  · intro hp
    unfold firstSegment
    rw [if_neg (by omega), if_neg (fun ht => hunreach ⟨hp, ht⟩)]
  · intro t ht
    have hne : techniques fl ≠ [] := List.ne_nil_of_mem ht
    have htcp := tcp_mem_of_techniques fl hne
    refine ⟨?_, ?_⟩
    · exact (mem_strJoin_occurs "/".toList _ t ht).trans
        ⟨"TCP (".toList, ")".toList, rfl⟩
    · have hpart : "TCP (".toList ++ strJoin (techniques fl) "/".toList ++ ")".toList
          ∈ protocolParts (techniques fl) (protocols fl) := by
        rw [protocolParts_eq_map]
        refine List.mem_map.2 ⟨"TCP".toList, htcp, ?_⟩
        unfold specRenderProtocol
        rw [if_pos ⟨rfl, hne⟩, strJoin_eq_intercalate]
      rw [determineScanType_eq, hfl, firstSegment,
        if_pos (List.length_pos.2 (List.ne_nil_of_mem htcp))]
      exact (mem_strJoin_occurs " + ".toList _ _ hpart).trans
        ⟨[], " ".toList ++ getPortRange command ++
          ((finalFeatures (features command fl)).map (fun f => ", ".toList ++ f)).flatten,
          by simp⟩

theorem techniques_inside_tcp_witness :
    "TCP".toList ∈ protocols (parseScanFlags "nmap -sU -sX -sA h".toList) ∧
    determineScanType "nmap -sU -sX -sA h".toList = "UDP + TCP (ACK/Xmas) Top 1000".toList :=
  ⟨(techniques_inside_tcp "nmap -sU -sX -sA h".toList).1 (by decide), by decide⟩

/-! ## Totality: the checked classifier always returns -/

theorem letterLoopChecked_eq (command : Str) (fuel j : Nat) (flags : List Char)
    (h : command.length - j < fuel) :
    letterLoopChecked command fuel j flags
      = some (flags ++ (command.drop j).takeWhile isLetter) := by
  induction fuel generalizing j flags with
  | zero => omega
  | succ fuel ih =>
    unfold letterLoopChecked
    by_cases hj : j < command.length
    · rw [if_pos hj]
      have hidx : indexChecked command j = some command[j] := by
        unfold indexChecked
        exact List.getElem?_eq_getElem hj
      have hdrop : command.drop j = command[j] :: command.drop (j + 1) :=
        List.drop_eq_getElem_cons hj
      rw [hidx, hdrop, List.takeWhile_cons]
      simp only
      by_cases hl : isLetter command[j] = true
      · rw [if_pos hl, if_pos hl, ih (j + 1) _ (by omega)]
        simp
      · rw [if_neg hl, if_neg hl, List.append_nil]
    · rw [if_neg hj, List.drop_eq_nil_of_le (by omega)]
      simp

theorem parseScanFlagsStepChecked_eq (command : Str) (flags : List Char) (i : Nat)
    (hi : i < command.length - 2) :
    parseScanFlagsStepChecked command flags i = some (parseScanFlagsStep command flags i) := by
  unfold parseScanFlagsStepChecked parseScanFlagsStep sliceChecked
  rw [if_pos ⟨by omega, by omega⟩]
  simp only [Nat.add_sub_cancel_left]
  by_cases h : (command.drop i).take 2 = "-s".toList
  · rw [if_pos h, if_pos h, letterLoopChecked_eq command _ _ _ (by omega)]
  · rw [if_neg h, if_neg h]

theorem foldlM_checked_eq (command : Str) (l : List Nat) (init : List Char)
    (h : ∀ i ∈ l, i < command.length - 2) :
    l.foldlM (parseScanFlagsStepChecked command) init
      = some (l.foldl (parseScanFlagsStep command) init) := by
  induction l generalizing init with
  | nil => rfl
  | cons i l ih =>
    rw [List.foldlM_cons, parseScanFlagsStepChecked_eq command init i
      (h i (List.mem_cons_self i l))]
    exact ih _ (fun k hk => h k (List.mem_cons_of_mem _ hk))

theorem parseScanFlagsChecked_eq (command : Str) :
    parseScanFlagsChecked command = some (parseScanFlags command) := by
  unfold parseScanFlagsChecked parseScanFlags
  exact foldlM_checked_eq command _ [] (fun i hi => List.mem_range.1 hi)

theorem findTopPortsSubmatch_eq (s : Str) :
    (findTopPorts s = none ∧ findTopPortsSubmatch s = []) ∨
      ∃ whole d, findTopPorts s = some d ∧ findTopPortsSubmatch s = [whole, d] := by
  induction s with
  | nil =>
    unfold findTopPorts findTopPortsSubmatch
    cases topPortsAt [] with
    | none => exact Or.inl ⟨rfl, rfl⟩
    | some d => exact Or.inr ⟨_, d, rfl, rfl⟩
  | cons c cs ih =>
    unfold findTopPorts findTopPortsSubmatch
    cases topPortsAt (c :: cs) with
    | none => exact ih
    | some d => exact Or.inr ⟨_, d, rfl, rfl⟩

theorem findPortSpecSubmatch_eq (s : Str) :
    (findPortSpec s = none ∧ findPortSpecSubmatch s = []) ∨
      ∃ whole d, findPortSpec s = some d ∧ findPortSpecSubmatch s = [whole, d] := by
  induction s with
  | nil =>
    unfold findPortSpec findPortSpecSubmatch
    cases portSpecAt [] with
    | none => exact Or.inl ⟨rfl, rfl⟩
    | some d => exact Or.inr ⟨_, d, rfl, rfl⟩
  | cons c cs ih =>
    unfold findPortSpec findPortSpecSubmatch
    cases portSpecAt (c :: cs) with
    | none => exact ih
    | some d => exact Or.inr ⟨_, d, rfl, rfl⟩

theorem topPortsRuleChecked_eq (command : Str) :
    topPortsRuleChecked command
      = some ((if strContains command "--top-ports".toList then findTopPorts command
              else none).map (fun n => "Top ".toList ++ n)) := by
  unfold topPortsRuleChecked
  by_cases h2 : strContains command "--top-ports".toList = true
  · rw [if_pos h2, if_pos h2]
    rcases findTopPortsSubmatch_eq command with ⟨hn, hm⟩ | ⟨whole, d, hn, hm⟩
    · rw [hn, hm]; rfl
    · rw [hn, hm]
      have hl : 1 < [whole, d].length := by simp
      have e : indexChecked [whole, d] 1 = some d := rfl
      rw [if_pos hl, e]
      rfl
  · rw [if_neg h2, if_neg h2]
    rfl

theorem portSpecRuleChecked_eq (command : Str) :
    portSpecRuleChecked command
      = some (match findPortSpec command with
          | some ports =>
            if strContains ports "-".toList || strContains ports ",".toList then
              "Custom Ports".toList
            else "Port ".toList ++ ports
          | none => "Custom Ports".toList) := by
  unfold portSpecRuleChecked
  rcases findPortSpecSubmatch_eq command with ⟨hn, hm⟩ | ⟨whole, d, hn, hm⟩
  · rw [hn, hm]; rfl
  · rw [hn, hm]
    have hl : 1 < [whole, d].length := by simp
    have e : indexChecked [whole, d] 1 = some d := rfl
    rw [if_pos hl, e]
    simp only
    by_cases hc : (strContains d "-".toList || strContains d ",".toList) = true
    · rw [if_pos hc, if_pos hc]
    · rw [if_neg hc, if_neg hc]

theorem getPortRangeChecked_eq (command : Str) :
    getPortRangeChecked command = some (getPortRange command) := by
  unfold getPortRangeChecked getPortRange
  rw [topPortsRuleChecked_eq, portSpecRuleChecked_eq]
  by_cases h1 : strContains command "-p-".toList = true
  · rw [if_pos h1, if_pos h1]
  · rw [if_neg h1, if_neg h1]
    cases (if strContains command "--top-ports".toList = true then findTopPorts command
        else none) with
    | some n => rfl
    | none =>
      simp only [Option.map_none']
      by_cases hF : hasStandaloneFlag command "-F".toList = true
      · rw [if_pos hF, if_pos hF]
      · rw [if_neg hF, if_neg hF]
        by_cases hp : strContains command " -p".toList = true
        · rw [if_pos hp, if_pos hp]
        · rw [if_neg hp, if_neg hp]

theorem determineScanType_ne_nil (command : Str) : determineScanType command ≠ [] := by
  rw [determineScanType_eq]
  intro h
  have hs := firstSegment_suffix (protocols (parseScanFlags command))
    (techniques (parseScanFlags command)) (getPortRange command)
  rw [(List.append_eq_nil.1 h).1] at hs
  have := List.eq_nil_of_suffix_nil hs
  exact absurd this (by simp)

/-- C16: with every slice and index operation checked, `parseScanFlags`,
`getPortRange` and `determineScanType` return for every command, with the results of
the unchecked functions; `hasStandaloneFlag` has no slice or index operation and no
error result; the label is never empty.  Commands of length 0, 1 and 2 are among
them. -/
theorem classifier_total :
    (∀ command : Str,
      parseScanFlagsChecked command = some (parseScanFlags command) ∧
      getPortRangeChecked command = some (getPortRange command) ∧
      determineScanTypeChecked command = some (determineScanType command) ∧
      determineScanType command ≠ [] ∧
      (∀ flag : Str, hasStandaloneFlag command flag = true ∨
        hasStandaloneFlag command flag = false)) ∧
    determineScanTypeChecked "".toList = some "TCP Top 1000".toList ∧
    determineScanTypeChecked "-".toList = some "TCP Top 1000".toList ∧
    determineScanTypeChecked "-s".toList = some "TCP Top 1000".toList ∧
    determineScanTypeChecked "-sV".toList = some "TCP Top 1000, Version Detection".toList ∧
    determineScanTypeChecked "-p".toList = some "TCP Top 1000".toList := by
  refine ⟨fun command => ⟨parseScanFlagsChecked_eq command, getPortRangeChecked_eq command,
    ?_, determineScanType_ne_nil command, fun flag => ?_⟩,
    by decide, by decide, by decide, by decide, by decide⟩
  · unfold determineScanTypeChecked
    rw [parseScanFlagsChecked_eq, getPortRangeChecked_eq]
    rfl
  · cases hasStandaloneFlag command flag
    · exact Or.inr rfl
    · exact Or.inl rfl

/-! ## The sort of `generateMarkdown` -/

theorem portLe_iff (a b : Port) : portLe a b ↔ portGreater a b = false := by
  unfold portLe portGreater
  rw [Bool.eq_false_iff]
  simp only [ne_eq, Bool.or_eq_true, decide_eq_true_eq, Bool.and_eq_true, not_or, not_and,
    gt_iff_lt, not_lt]
  constructor
  · rintro (h | ⟨h1, h2⟩)
    · exact ⟨by omega, fun h' => by omega⟩
    · exact ⟨by omega, fun _ => h2⟩
  · rintro ⟨h1, h2⟩
    rcases Nat.lt_or_ge (sscanfInt a.Number) (sscanfInt b.Number) with h | h
    · exact Or.inl h
    · exact Or.inr ⟨by omega, h2 (by omega)⟩

theorem portLe_refl (a : Port) : portLe a a := Or.inr ⟨rfl, le_refl _⟩

theorem portLe_trans {a b c : Port} (h1 : portLe a b) (h2 : portLe b c) : portLe a c := by
  unfold portLe at *
  rcases h1 with h1 | ⟨h1, h1'⟩ <;> rcases h2 with h2 | ⟨h2, h2'⟩
  · exact Or.inl (by omega)
  · exact Or.inl (by omega)
  · exact Or.inl (by omega)
  · exact Or.inr ⟨by omega, le_trans h1' h2'⟩

theorem portLe_of_greater {a b : Port} (h : portGreater a b = true) : portLe b a := by
  unfold portGreater at h
  simp only [Bool.or_eq_true, decide_eq_true_eq, Bool.and_eq_true, gt_iff_lt] at h
  rcases h with h | ⟨h1, h2⟩
  · exact Or.inl h
  · exact Or.inr ⟨h1.symm, le_of_lt h2⟩

theorem swapStep_short (l : List Port) (j : Nat) (h : l.length ≤ 1) : swapStep l j = l := by
  unfold swapStep
  have : l[j + 1]? = none := List.getElem?_eq_none (by omega)
  rw [this]
  cases l[j]? <;> rfl

theorem swapStep_zero (a b : Port) (t : List Port) :
    swapStep (a :: b :: t) 0 = if portGreater a b then b :: a :: t else a :: b :: t := by
  unfold swapStep
  simp only [List.getElem?_cons_zero, List.getElem?_cons_succ, Nat.zero_add,
    List.set_cons_zero, List.set_cons_succ]

theorem swapStep_succ (h : Port) (t : List Port) (j : Nat) :
    swapStep (h :: t) (j + 1) = h :: swapStep t j := by
  unfold swapStep
  simp only [List.getElem?_cons_succ]
  cases t[j]? with
  | none => rfl
  | some a =>
    cases t[j + 1]? with
    | none => rfl
    | some b =>
      simp only [List.set_cons_succ]
      split <;> rfl

theorem foldl_swapStep_cons (h : Port) (js : List Nat) (t : List Port) :
    js.foldl (fun l j => swapStep l (j + 1)) (h :: t) = h :: js.foldl swapStep t := by
  induction js generalizing t with
  | nil => rfl
  | cons j js ih =>
    rw [List.foldl_cons, List.foldl_cons, swapStep_succ, ih]

theorem foldl_swapStep_short (l : List Port) (js : List Nat) (h : l.length ≤ 1) :
    js.foldl swapStep l = l := by
  induction js with
  | nil => rfl
  | cons j js ih => rw [List.foldl_cons, swapStep_short l j h, ih]

/-- The index loop of one pass is the bubble pass by recursion on the list. -/
theorem foldl_swapStep_eq_bubble (m : Nat) (l : List Port) :
    (List.range m).foldl swapStep l = bubble m l := by
  induction m generalizing l with
  | zero => rfl
  | succ m ih =>
    match l with
    | [] => exact foldl_swapStep_short [] _ (by simp)
    | [a] => exact foldl_swapStep_short [a] _ (by simp)
    | a :: b :: t =>
      rw [List.range_succ_eq_map, List.foldl_cons, List.foldl_map, swapStep_zero, bubble]
      by_cases hg : portGreater a b = true
      · rw [if_pos hg, if_pos hg]
        show (List.range m).foldl (fun l j => swapStep l (j + 1)) (b :: a :: t) = _
        rw [foldl_swapStep_cons, ih]
      · rw [if_neg hg, if_neg hg]
        show (List.range m).foldl (fun l j => swapStep l (j + 1)) (a :: b :: t) = _
        rw [foldl_swapStep_cons, ih]
/-- One pass over a front of `m + 1` ports moves a greatest port of the front to its
end and leaves what follows the front untouched. -/
theorem bubble_spec (m : Nat) (front suffix : List Port) (h : front.length = m + 1) :
    ∃ (front' : List Port) (mx : Port),
      bubble m (front ++ suffix) = front' ++ mx :: suffix ∧
      List.Perm (front' ++ [mx]) front ∧ ∀ x ∈ front', portLe x mx := by
  induction m generalizing front with
  | zero =>
    match front, h with
    | [a], _ => exact ⟨[], a, rfl, List.Perm.refl _, fun x hx => absurd hx (List.not_mem_nil x)⟩
  | succ m ih =>
    match front, h with
    | a :: b :: t, h =>
      have hlen : (b :: t).length = m + 1 := by simpa using h
      have hlen' : (a :: t).length = m + 1 := by simpa using h
      simp only [List.cons_append, bubble]
      by_cases hg : portGreater a b = true
      · rw [if_pos hg]
        obtain ⟨f', mx, hb, hperm, hle⟩ := ih (a :: t) hlen'
        rw [List.cons_append] at hb
        refine ⟨b :: f', mx, congrArg (List.cons b) hb, ?_, ?_⟩
        · exact ((List.Perm.cons b hperm).trans (List.Perm.swap a b t))
        · intro x hx
          have ha : portLe a mx := by
            have : a ∈ f' ++ [mx] := hperm.symm.subset (List.mem_cons_self a t)
            rcases List.mem_append.1 this with h1 | h1
            · exact hle a h1
            · rw [List.mem_singleton.1 h1]; exact portLe_refl mx
          rcases List.mem_cons.1 hx with rfl | hx
          · exact portLe_trans (portLe_of_greater hg) ha
          · exact hle x hx
      · rw [if_neg hg]
        obtain ⟨f', mx, hb, hperm, hle⟩ := ih (b :: t) hlen
        rw [List.cons_append] at hb
        refine ⟨a :: f', mx, congrArg (List.cons a) hb, List.Perm.cons a hperm, ?_⟩
        intro x hx
        have hbm : portLe b mx := by
          have : b ∈ f' ++ [mx] := hperm.symm.subset (List.mem_cons_self b t)
          rcases List.mem_append.1 this with h1 | h1
          · exact hle b h1
          · rw [List.mem_singleton.1 h1]; exact portLe_refl mx
        rcases List.mem_cons.1 hx with rfl | hx
        · exact portLe_trans ((portLe_iff _ _).2 (by simpa using hg)) hbm
        · exact hle x hx

/-- The state of the outer loop after `k` passes: the last `k` ports are in order and
not below any port before them. -/
theorem sortPass_invariant (ports : List Port) (k : Nat) (hk : k + 1 ≤ ports.length) :
    ∃ front suffix : List Port,
      (List.range k).foldl sortPass ports = front ++ suffix ∧
      front.length + k = ports.length ∧
      List.Pairwise portLe suffix ∧
      (∀ x ∈ front, ∀ y ∈ suffix, portLe x y) ∧
      List.Perm (front ++ suffix) ports := by
  induction k with
  | zero =>
    exact ⟨ports, [], by simp, by simp, List.Pairwise.nil,
      fun x _ y hy => absurd hy (List.not_mem_nil y), by simp⟩
  | succ k ih =>
    obtain ⟨front, suffix, hcur, hlen, hpw, hfs, hperm⟩ := ih (by omega)
    rw [List.range_succ, List.foldl_append, List.foldl_cons, List.foldl_nil, hcur]
    have hcl : (front ++ suffix).length = ports.length := hperm.length_eq
    unfold sortPass
    rw [foldl_swapStep_eq_bubble, hcl]
    obtain ⟨front', mx, hb, hp', hle⟩ :=
      bubble_spec (ports.length - k - 1) front suffix (by omega)
    rw [hb]
    have hmx : mx ∈ front := hp'.subset (List.mem_append_right _ (List.mem_singleton_self mx))
    have hsub : ∀ x ∈ front', x ∈ front := fun x hx => hp'.subset (List.mem_append_left _ hx)
    refine ⟨front', mx :: suffix, rfl, ?_, ?_, ?_, ?_⟩
    · have := hp'.length_eq
      simp only [List.length_append, List.length_singleton] at this
      omega
    · exact List.Pairwise.cons (fun y hy => hfs mx hmx y hy) hpw
    · intro x hx y hy
      rcases List.mem_cons.1 hy with rfl | hy
      · exact hle x hx
      · exact hfs x (hsub x hx) y hy
    · have e : front' ++ mx :: suffix = (front' ++ [mx]) ++ suffix := by simp
      rw [e]
      exact (List.Perm.append_right suffix hp').trans hperm

theorem sortPorts_perm_pairwise (ports : List Port) :
    List.Perm (sortPorts ports) ports ∧ List.Pairwise portLe (sortPorts ports) := by
  unfold sortPorts
  cases hn : ports.length with
  | zero =>
    have : ports = [] := List.length_eq_zero.1 hn
    subst this
    exact ⟨List.Perm.refl _, List.Pairwise.nil⟩
  | succ n =>
    obtain ⟨front, suffix, hcur, hlen, hpw, hfs, hperm⟩ :=
      sortPass_invariant ports n (by omega)
    simp only [Nat.add_sub_cancel]
    rw [hcur]
    refine ⟨hperm, ?_⟩
    exact List.pairwise_append.2 ⟨by
      match front, (by omega : front.length = 1) with
      | [a], _ => exact List.pairwise_singleton _ _, hpw, hfs⟩

theorem sscanfInt_of_digits (s : Str) (hd : ∀ c ∈ s, isDigit c = true)
    (hv : decimalValue s < 2 ^ 63) : sscanfInt s = decimalValue s := by
  unfold sscanfInt
  rw [List.takeWhile_eq_self_iff.2 hd]
  by_cases hne : s = []
  · rw [if_pos hne, hne]
    rfl
  · rw [if_neg hne, if_pos hv]

/-- C14 (as stated, refuted): the numbers `5` and `9223372036854775808` are strings of
decimal digits, the second does not fit the 64-bit `int` and is scanned as `0`, so
the sort puts `9223372036854775808/TCP` before `5/TCP`: the result is not ascending by
numeric port number. -/
theorem sortPorts_sorted_counterexample :
    (∀ c ∈ "5".toList, isDigit c = true) ∧
    (∀ c ∈ "9223372036854775808".toList, isDigit c = true) ∧
    decimalValue "5".toList = 5 ∧
    decimalValue "9223372036854775808".toList = 9223372036854775808 ∧
    sscanfInt "9223372036854775808".toList = 0 ∧
    sortPorts [⟨"5".toList, "TCP".toList, "open".toList, [], []⟩,
        ⟨"9223372036854775808".toList, "TCP".toList, "open".toList, [], []⟩]
      = [⟨"9223372036854775808".toList, "TCP".toList, "open".toList, [], []⟩,
        ⟨"5".toList, "TCP".toList, "open".toList, [], []⟩] ∧
    ¬ List.Chain' (fun p q => decimalValue p.Number < decimalValue q.Number ∨
        (decimalValue p.Number = decimalValue q.Number ∧ p.Protocol ≤ q.Protocol))
      (sortPorts [⟨"5".toList, "TCP".toList, "open".toList, [], []⟩,
        ⟨"9223372036854775808".toList, "TCP".toList, "open".toList, [], []⟩]) := by
  have hsort : sortPorts [⟨"5".toList, "TCP".toList, "open".toList, [], []⟩,
        ⟨"9223372036854775808".toList, "TCP".toList, "open".toList, [], []⟩]
      = [⟨"9223372036854775808".toList, "TCP".toList, "open".toList, [], []⟩,
        ⟨"5".toList, "TCP".toList, "open".toList, [], []⟩] := by decide
  refine ⟨by decide, by decide, by decide, by decide, by decide, hsort, ?_⟩
  rw [hsort, List.chain'_pair]
  decide

/-- C14 (amended): for ports whose numbers are strings of decimal digits with a value
that fits the 64-bit `int` (below `2 ^ 63`), in whatever order they are taken from
the map, the sort loop yields a permutation of them in which every adjacent pair
`p`, `q` (and every earlier/later pair) has `num p < num q`, or `num p = num q` and
`p.Protocol ≤ q.Protocol`, where `num` is the value of the digits. -/
theorem sortPorts_sorted (ports : List Port)
    (hd : ∀ p ∈ ports, (∀ c ∈ p.Number, isDigit c = true) ∧ decimalValue p.Number < 2 ^ 63) :
    List.Perm (sortPorts ports) ports ∧
    List.Chain' (fun p q => decimalValue p.Number < decimalValue q.Number ∨
      (decimalValue p.Number = decimalValue q.Number ∧ p.Protocol ≤ q.Protocol))
      (sortPorts ports) ∧
    List.Pairwise (fun p q => decimalValue p.Number < decimalValue q.Number ∨
      (decimalValue p.Number = decimalValue q.Number ∧ p.Protocol ≤ q.Protocol))
      (sortPorts ports) := by
  obtain ⟨hperm, hpw⟩ := sortPorts_perm_pairwise ports
  have hnum : ∀ p ∈ sortPorts ports, sscanfInt p.Number = decimalValue p.Number := by
    intro p hp
    obtain ⟨hdig, hv⟩ := hd p (hperm.subset hp)
    exact sscanfInt_of_digits _ hdig hv
  have hpw' : List.Pairwise (fun p q => decimalValue p.Number < decimalValue q.Number ∨
      (decimalValue p.Number = decimalValue q.Number ∧ p.Protocol ≤ q.Protocol))
      (sortPorts ports) := by
    refine List.Pairwise.imp_of_mem ?_ hpw
    intro a b ha hb hab
    unfold portLe at hab
    rw [hnum a ha, hnum b hb] at hab
    exact hab
  exact ⟨hperm, hpw'.chain', hpw'⟩

theorem sortPorts_sorted_witness :
    sortPorts [⟨"443".toList, "TCP".toList, "open".toList, "https".toList, []⟩,
        ⟨"80".toList, "UDP".toList, "open".toList, [], []⟩,
        ⟨"80".toList, "TCP".toList, "open".toList, "http".toList, []⟩]
      = [⟨"80".toList, "TCP".toList, "open".toList, "http".toList, []⟩,
        ⟨"80".toList, "UDP".toList, "open".toList, [], []⟩,
        ⟨"443".toList, "TCP".toList, "open".toList, "https".toList, []⟩] ∧
    List.Chain' (fun p q => decimalValue p.Number < decimalValue q.Number ∨
        (decimalValue p.Number = decimalValue q.Number ∧ p.Protocol ≤ q.Protocol))
      (sortPorts [⟨"443".toList, "TCP".toList, "open".toList, "https".toList, []⟩,
        ⟨"80".toList, "UDP".toList, "open".toList, [], []⟩,
        ⟨"80".toList, "TCP".toList, "open".toList, "http".toList, []⟩]) :=
  ⟨by decide,
    (sortPorts_sorted [⟨"443".toList, "TCP".toList, "open".toList, "https".toList, []⟩,
        ⟨"80".toList, "UDP".toList, "open".toList, [], []⟩,
        ⟨"80".toList, "TCP".toList, "open".toList, "http".toList, []⟩] (by decide)).2.1⟩

/-- A list in `portLe` order that is a permutation of a strictly increasing list is
that list. -/
theorem eq_of_perm_of_strict (s l : List Port) (hp : List.Perm l s)
    (hl : List.Pairwise portLe l)
    (hs : List.Pairwise (fun x y => portGreater y x = true) s) : l = s := by
  induction s generalizing l with
  | nil => exact hp.eq_nil
  | cons x s' ih =>
    cases l with
    | nil => exact absurd hp.symm.eq_nil (List.cons_ne_nil _ _)
    | cons y l' =>
      rw [List.pairwise_cons] at hl hs
      by_cases hyx : y = x
      · subst hyx
        rw [ih l' hp.cons_inv hl.2 hs.2]
      · exfalso
        have hy : y ∈ s' := by
          rcases List.mem_cons.1 (hp.subset (List.mem_cons_self y l')) with h | h
          · exact absurd h hyx
          · exact h
        have hg := hs.1 y hy
        have hx : x ∈ l' := by
          rcases List.mem_cons.1 (hp.symm.subset (List.mem_cons_self x s')) with h | h
          · exact absurd h.symm hyx
          · exact h
        have := (portLe_iff y x).1 (hl.1 x hx)
        rw [hg] at this
        exact absurd this (by decide)

theorem portGreater_fields (a b : Port) :
    portGreater a b =
      portGreater ⟨a.Number, a.Protocol, [], [], []⟩ ⟨b.Number, b.Protocol, [], [], []⟩ := rfl

theorem not_greater_of_sameKey (p a b : Port) (ha : sameKey p a = true)
    (hb : sameKey p b = true) : portGreater a b = false := by
  unfold sameKey at ha hb
  simp only [Bool.and_eq_true, decide_eq_true_eq] at ha hb
  rw [← portLe_iff]
  exact Or.inr ⟨by rw [← ha.1, ← hb.1], by rw [← ha.2, ← hb.2]⟩

theorem filter_swap (p a b : Port) (t : List Port) (hg : portGreater a b = true) :
    (b :: a :: t).filter (sameKey p) = (a :: b :: t).filter (sameKey p) := by
  by_cases ha : sameKey p a = true
  · by_cases hb : sameKey p b = true
    · rw [not_greater_of_sameKey p a b ha hb] at hg
      exact absurd hg (by decide)
    · simp only [List.filter_cons, ha, hb, if_true, Bool.false_eq_true, if_false]
  · simp only [List.filter_cons, ha, Bool.false_eq_true, if_false]

theorem bubble_filter (p : Port) (m : Nat) (l : List Port) :
    (bubble m l).filter (sameKey p) = l.filter (sameKey p) := by
  induction m generalizing l with
  | zero => rfl
  | succ m ih =>
    match l with
    | [] => rfl
    | [a] => rfl
    | a :: b :: t =>
      rw [bubble]
      by_cases hg : portGreater a b = true
      · rw [if_pos hg, ← filter_swap p a b t hg, List.filter_cons, ih (a :: t),
          List.filter_cons (p := sameKey p) (x := b)]
      · rw [if_neg hg, List.filter_cons, ih (b :: t),
          List.filter_cons (p := sameKey p) (x := a)]

theorem foldl_sortPass_filter (p : Port) (js : List Nat) (l : List Port) :
    (js.foldl sortPass l).filter (sameKey p) = l.filter (sameKey p) := by
  induction js generalizing l with
  | nil => rfl
  | cons j js ih =>
    rw [List.foldl_cons, ih]
    unfold sortPass
    rw [foldl_swapStep_eq_bubble, bubble_filter]

/-- The sort never exchanges two ports with the same key: it is stable. -/
theorem sortPorts_stable (p : Port) (l : List Port) :
    (sortPorts l).filter (sameKey p) = l.filter (sameKey p) := by
  unfold sortPorts
  exact foldl_sortPass_filter p _ l

/-- C15 (as stated, refuted): the ports `443/TCP, 80/TCP, 53/UDP, 80/UDP` come out as
`53/UDP, 80/TCP, 80/UDP, 443/TCP`, by number first, and not as
`80/TCP, 443/TCP, 53/UDP, 80/UDP`. -/
theorem sortPorts_order_counterexample :
    portHeadings [⟨"443".toList, "TCP".toList, "open".toList, "https".toList, []⟩,
        ⟨"80".toList, "TCP".toList, "open".toList, "http".toList, []⟩,
        ⟨"53".toList, "UDP".toList, "open".toList, "domain".toList, []⟩,
        ⟨"80".toList, "UDP".toList, "open".toList, "http".toList, []⟩]
      = ["# 53/udp (domain)\n".toList, "# 80/tcp (http)\n".toList,
          "# 80/udp (http)\n".toList, "# 443/tcp (https)\n".toList] ∧
    portHeadings [⟨"443".toList, "TCP".toList, "open".toList, "https".toList, []⟩,
        ⟨"80".toList, "TCP".toList, "open".toList, "http".toList, []⟩,
        ⟨"53".toList, "UDP".toList, "open".toList, "domain".toList, []⟩,
        ⟨"80".toList, "UDP".toList, "open".toList, "http".toList, []⟩]
      ≠ ["# 80/tcp (http)\n".toList, "# 443/tcp (https)\n".toList,
          "# 53/udp (domain)\n".toList, "# 80/udp (http)\n".toList] := by
  decide

/-- C15 (amended): the merged ports `443/TCP`, `80/TCP`, `53/UDP`, `80/UDP`, in any
input order and with any service and version, are emitted in the order
`53/UDP, 80/TCP, 80/UDP, 443/TCP`; the sort is stable (ports with the same key keep
their order) and total (every input comes out as an ordered permutation). -/
theorem sortPorts_order (p443t p80t p53u p80u : Port) (l : List Port)
    (h1 : p443t.Number = "443".toList ∧ p443t.Protocol = "TCP".toList)
    (h2 : p80t.Number = "80".toList ∧ p80t.Protocol = "TCP".toList)
    (h3 : p53u.Number = "53".toList ∧ p53u.Protocol = "UDP".toList)
    (h4 : p80u.Number = "80".toList ∧ p80u.Protocol = "UDP".toList)
    (hl : List.Perm l [p443t, p80t, p53u, p80u]) :
    sortPorts l = [p53u, p80t, p80u, p443t] ∧
    portHeadings l = [portHeading p53u, portHeading p80t, portHeading p80u,
      portHeading p443t] ∧
    (∀ (ports : List Port) (p : Port),
      (sortPorts ports).filter (sameKey p) = ports.filter (sameKey p)) ∧
    (∀ ports : List Port,
      List.Perm (sortPorts ports) ports ∧ List.Pairwise portLe (sortPorts ports)) := by
  have hsort : sortPorts l = [p53u, p80t, p80u, p443t] := by
    obtain ⟨hperm, hpw⟩ := sortPorts_perm_pairwise l
    apply eq_of_perm_of_strict _ _ _ hpw
    · simp only [List.pairwise_cons, List.mem_cons, List.mem_singleton, List.not_mem_nil,
        or_false, forall_eq_or_imp, forall_eq, false_implies, implies_true, and_true,
        List.Pairwise.nil]
      refine ⟨⟨?_, ?_, ?_⟩, ⟨?_, ?_⟩, ?_⟩ <;>
        (rw [portGreater_fields]
         simp only [h1.1, h1.2, h2.1, h2.2, h3.1, h3.2, h4.1, h4.2]
         decide)
    · refine (hperm.trans hl).trans ?_
      have e1 : List.Perm [p443t, p80t, p53u, p80u] [p80t, p53u, p80u, p443t] := by
        have := @List.perm_append_comm _ [p443t] [p80t, p53u, p80u]
        simpa using this
      have e2 : List.Perm [p80t, p53u, p80u, p443t] [p53u, p80t, p80u, p443t] :=
        List.Perm.swap _ _ _
      exact e1.trans e2
  exact ⟨hsort, by unfold portHeadings; rw [hsort]; rfl,
    fun ports p => sortPorts_stable p ports, sortPorts_perm_pairwise⟩

theorem sortPorts_order_witness :
    sortPorts [⟨"80".toList, "UDP".toList, "open".toList, [], []⟩,
        ⟨"443".toList, "TCP".toList, "open".toList, [], []⟩,
        ⟨"53".toList, "UDP".toList, "open".toList, [], []⟩,
        ⟨"80".toList, "TCP".toList, "open".toList, [], []⟩]
      = [⟨"53".toList, "UDP".toList, "open".toList, [], []⟩,
        ⟨"80".toList, "TCP".toList, "open".toList, [], []⟩,
        ⟨"80".toList, "UDP".toList, "open".toList, [], []⟩,
        ⟨"443".toList, "TCP".toList, "open".toList, [], []⟩] :=
  (sortPorts_order ⟨"443".toList, "TCP".toList, "open".toList, [], []⟩
    ⟨"80".toList, "TCP".toList, "open".toList, [], []⟩
    ⟨"53".toList, "UDP".toList, "open".toList, [], []⟩
    ⟨"80".toList, "UDP".toList, "open".toList, [], []⟩
    [⟨"80".toList, "UDP".toList, "open".toList, [], []⟩,
      ⟨"443".toList, "TCP".toList, "open".toList, [], []⟩,
      ⟨"53".toList, "UDP".toList, "open".toList, [], []⟩,
      ⟨"80".toList, "TCP".toList, "open".toList, [], []⟩]
    ⟨rfl, rfl⟩ ⟨rfl, rfl⟩ ⟨rfl, rfl⟩ ⟨rfl, rfl⟩ (by decide)).1

/-! ## The merge of `generateMarkdown` -/

theorem mapGet_mapSet (m : PortMap) (k k' : Str) (v : Port) :
    mapGet (mapSet m k v) k' = if k = k' then some v else mapGet m k' := by
  induction m with
  | nil => rfl
  | cons e rest ih =>
    obtain ⟨k0, v0⟩ := e
    unfold mapSet
    by_cases h0 : k0 = k
    · rw [if_pos h0]
      subst h0
      simp only [mapGet]
      by_cases h1 : k0 = k'
      · rw [if_pos h1, if_pos h1]
      · rw [if_neg h1, if_neg h1, if_neg h1]
    · rw [if_neg h0]
      simp only [mapGet, ih]
      by_cases h1 : k0 = k'
      · subst h1
        rw [if_pos rfl, if_neg (fun h => h0 h.symm), if_pos rfl]
      · rw [if_neg h1, if_neg h1]

theorem mapGet_isSome_iff (m : PortMap) (k : Str) :
    (mapGet m k).isSome = true ↔ k ∈ m.map Prod.fst := by
  induction m with
  | nil =>
    simp only [mapGet, List.map_nil, List.not_mem_nil, Option.isSome_none,
      Bool.false_eq_true]
  | cons e rest ih =>
    obtain ⟨k0, v0⟩ := e
    simp only [mapGet, List.map_cons, List.mem_cons]
    by_cases h : k0 = k
    · rw [if_pos h]
      exact ⟨fun _ => Or.inl h.symm, fun _ => rfl⟩
    · rw [if_neg h, ih]
      constructor
      · exact Or.inr
      · rintro (h' | h')
        · exact absurd h'.symm h
        · exact h'

theorem mapSet_keys (m : PortMap) (k : Str) (v : Port) :
    (mapSet m k v).map Prod.fst
      = if k ∈ m.map Prod.fst then m.map Prod.fst else m.map Prod.fst ++ [k] := by
  induction m with
  | nil =>
    simp only [mapSet, List.map_nil, List.not_mem_nil, if_false, List.map_cons,
      List.nil_append]
  | cons e rest ih =>
    obtain ⟨k0, v0⟩ := e
    unfold mapSet
    by_cases h0 : k0 = k
    · subst h0
      rw [if_pos rfl]
      simp only [List.map_cons, List.mem_cons, true_or, if_true]
    · rw [if_neg h0]
      simp only [List.map_cons, ih, List.mem_cons]
      by_cases hk : k ∈ rest.map Prod.fst
      · rw [if_pos hk, if_pos (Or.inr hk)]
      · rw [if_neg hk, if_neg (by rintro (h | h); exact h0 h.symm; exact hk h)]
        rfl

theorem mapSet_nodup (m : PortMap) (k : Str) (v : Port) (h : (m.map Prod.fst).Nodup) :
    ((mapSet m k v).map Prod.fst).Nodup := by
  rw [mapSet_keys]
  split
  · exact h
  · rename_i hk
    exact List.nodup_append.2 ⟨h, List.nodup_singleton k, by
      intro a ha hb
      rw [List.mem_singleton] at hb
      exact hk (hb ▸ ha)⟩

theorem mapGet_some_mem (m : PortMap) (k : Str) (v : Port) (h : mapGet m k = some v) :
    (k, v) ∈ m := by
  induction m with
  | nil => cases h
  | cons e rest ih =>
    obtain ⟨k0, v0⟩ := e
    simp only [mapGet] at h
    split at h
    · rename_i hk
      cases h
      subst hk
      exact List.mem_cons_self _ _
    · exact List.mem_cons_of_mem _ (ih h)

theorem mem_mapGet (m : PortMap) (k : Str) (v : Port) (hn : (m.map Prod.fst).Nodup)
    (h : (k, v) ∈ m) : mapGet m k = some v := by
  induction m with
  | nil => cases h
  | cons e rest ih =>
    obtain ⟨k0, v0⟩ := e
    rw [List.map_cons, List.nodup_cons] at hn
    simp only [mapGet]
    rcases List.mem_cons.1 h with h | h
    · cases h
      rw [if_pos rfl]
    · have hk : k ∈ rest.map Prod.fst := List.mem_map.2 ⟨(k, v), h, rfl⟩
      rw [if_neg (fun (h0 : k0 = k) => hn.1 (h0 ▸ hk))]
      exact ih hn.2 h

theorem mapGet_mergeStep (m : PortMap) (port : Port) (k : Str) :
    mapGet (mergeStep m port) k
      = if portKey port = k then pickRecord (mapGet m k) port else mapGet m k := by
  unfold mergeStep
  by_cases hk : portKey port = k
  · subst hk
    rw [if_pos rfl]
    cases hg : mapGet m (portKey port) with
    | none => simp only [pickRecord, mapGet_mapSet, if_true]
    | some existing =>
      simp only [pickRecord]
      split
      · rw [mapGet_mapSet, if_pos rfl]
      · exact hg
  · rw [if_neg hk]
    cases hg : mapGet m (portKey port) with
    | none => simp only [mapGet_mapSet, if_neg hk]
    | some existing =>
      simp only
      split
      · rw [mapGet_mapSet, if_neg hk]
      · rfl

theorem mergeStep_nodup (m : PortMap) (port : Port) (h : (m.map Prod.fst).Nodup) :
    ((mergeStep m port).map Prod.fst).Nodup := by
  unfold mergeStep
  cases mapGet m (portKey port) with
  | none => exact mapSet_nodup m _ _ h
  | some existing =>
    simp only
    split
    · exact mapSet_nodup m _ _ h
    · exact h

theorem foldl_mergeStep_nodup (l : List Port) (m : PortMap) (h : (m.map Prod.fst).Nodup) :
    ((l.foldl mergeStep m).map Prod.fst).Nodup := by
  induction l generalizing m with
  | nil => exact h
  | cons p l ih => exact ih _ (mergeStep_nodup m p h)

theorem mapGet_foldl_mergeStep (l : List Port) (m : PortMap) (k : Str) :
    mapGet (l.foldl mergeStep m) k
      = (l.filter (fun p => portKey p = k)).foldl pickRecord (mapGet m k) := by
  induction l generalizing m with
  | nil => rfl
  | cons p l ih =>
    rw [List.foldl_cons, ih, mapGet_mergeStep, List.filter_cons]
    by_cases hk : portKey p = k
    · simp only [hk, decide_True, if_true, List.foldl_cons]
    · simp only [hk, decide_False, if_false, Bool.false_eq_true]

theorem mergePorts_eq (scans : List NmapScan) :
    mergePorts scans = ((scans.map (fun s => s.Ports)).flatten).foldl mergeStep [] := by
  unfold mergePorts
  rw [List.foldl_flatten, List.foldl_map]
theorem foldl_pickRecord_versioned (ps : List Port) (e : Port) (he : e.Version ≠ []) :
    ps.foldl pickRecord (some e) = some e := by
  induction ps with
  | nil => rfl
  | cons p ps ih =>
    rw [List.foldl_cons]
    have : pickRecord (some e) p = some e := by
      show (if e.Version = [] ∧ p.Version ≠ [] then some p else some e) = some e
      rw [if_neg (fun h => he h.1)]
    rw [this, ih]

theorem foldl_pickRecord_unversioned (ps : List Port) (e : Port) (he : e.Version = []) :
    ps.foldl pickRecord (some e)
      = some ((ps.find? (fun p => decide (p.Version ≠ []))).getD e) := by
  induction ps with
  | nil => rfl
  | cons p ps ih =>
    rw [List.foldl_cons, List.find?_cons]
    by_cases hp : p.Version = []
    · have h1 : pickRecord (some e) p = some e := by
        show (if e.Version = [] ∧ p.Version ≠ [] then some p else some e) = some e
        rw [if_neg (fun h => h.2 hp)]
      have h2 : decide (p.Version ≠ []) = false := by simp [hp]
      rw [h1, h2, ih]
    · have h1 : pickRecord (some e) p = some p := by
        show (if e.Version = [] ∧ p.Version ≠ [] then some p else some e) = some p
        rw [if_pos ⟨he, hp⟩]
      have h2 : decide (p.Version ≠ []) = true := by simp [hp]
      rw [h1, h2, foldl_pickRecord_versioned ps p hp]
      rfl

/-- The record left under a key by the merge steps: the first versioned one, else the
first. -/
theorem foldl_pickRecord_none (ps : List Port) :
    ps.foldl pickRecord none
      = match ps.find? (fun p => decide (p.Version ≠ [])) with
        | some p => some p
        | none => ps.head? := by
  cases ps with
  | nil => rfl
  | cons p ps =>
    rw [List.foldl_cons, List.find?_cons]
    have h0 : pickRecord none p = some p := rfl
    rw [h0]
    by_cases hp : p.Version = []
    · have h2 : decide (p.Version ≠ []) = false := by simp [hp]
      rw [h2, foldl_pickRecord_unversioned ps p hp]
      simp only [List.head?_cons]
      cases ps.find? (fun p => decide (p.Version ≠ [])) <;> rfl
    · have h2 : decide (p.Version ≠ []) = true := by simp [hp]
      rw [h2, foldl_pickRecord_versioned ps p hp]

theorem chosen_mem (ps : List Port) (r : Port)
    (h : (match ps.find? (fun p => decide (p.Version ≠ [])) with
        | some p => some p
        | none => ps.head?) = some r) : r ∈ ps := by
  cases hf : ps.find? (fun p => decide (p.Version ≠ [])) with
  | some p =>
    rw [hf] at h
    cases h
    exact List.mem_of_find?_eq_some hf
  | none =>
    rw [hf] at h
    exact List.mem_of_mem_head? h

theorem chosen_isSome (ps : List Port) (hne : ps ≠ []) :
    ∃ r, (match ps.find? (fun p => decide (p.Version ≠ [])) with
        | some p => some p
        | none => ps.head?) = some r := by
  cases hf : ps.find? (fun p => decide (p.Version ≠ [])) with
  | some p => exact ⟨p, rfl⟩
  | none =>
    cases ps with
    | nil => exact absurd rfl hne
    | cons a t => exact ⟨a, rfl⟩

theorem mem_mapSet (m : PortMap) (k : Str) (v : Port) (e : Str × Port)
    (h : e ∈ mapSet m k v) : e ∈ m ∨ e = (k, v) := by
  induction m with
  | nil =>
    rw [mapSet, List.mem_singleton] at h
    exact Or.inr h
  | cons e0 rest ih =>
    obtain ⟨k0, v0⟩ := e0
    unfold mapSet at h
    split at h
    · rcases List.mem_cons.1 h with h | h
      · exact Or.inr h
      · exact Or.inl (List.mem_cons_of_mem _ h)
    · rcases List.mem_cons.1 h with h | h
      · exact Or.inl (h ▸ List.mem_cons_self _ _)
      · rcases ih h with h | h
        · exact Or.inl (List.mem_cons_of_mem _ h)
        · exact Or.inr h

theorem mem_mergeStep (m : PortMap) (port : Port) (e : Str × Port)
    (h : e ∈ mergeStep m port) : e ∈ m ∨ e = (portKey port, port) := by
  unfold mergeStep at h
  cases hg : mapGet m (portKey port) with
  | none =>
    rw [hg] at h
    exact mem_mapSet m _ _ e h
  | some existing =>
    rw [hg] at h
    simp only at h
    split at h
    · exact mem_mapSet m _ _ e h
    · exact Or.inl h

theorem mem_foldl_mergeStep (l : List Port) (m : PortMap) (e : Str × Port)
    (h : e ∈ l.foldl mergeStep m) : e ∈ m ∨ (e.2 ∈ l ∧ e.1 = portKey e.2) := by
  induction l generalizing m with
  | nil => exact Or.inl h
  | cons p l ih =>
    rcases ih _ h with h1 | ⟨h1, h2⟩
    · rcases mem_mergeStep m p e h1 with h3 | h3
      · exact Or.inl h3
      · exact Or.inr ⟨by rw [h3]; exact List.mem_cons_self _ _, by rw [h3]⟩
    · exact Or.inr ⟨List.mem_cons_of_mem _ h1, h2⟩

theorem split_at_slash (a c b d : Str) (ha : '/' ∉ a) (hc : '/' ∉ c)
    (h : a ++ '/' :: b = c ++ '/' :: d) : a = c ∧ b = d := by
  induction a generalizing c with
  | nil =>
    cases c with
    | nil => exact ⟨rfl, (List.cons.inj h).2⟩
    | cons y c' =>
      have := (List.cons.inj h).1
      exact absurd (this ▸ List.mem_cons_self _ _ : '/' ∈ y :: c') hc
  | cons x a' ih =>
    cases c with
    | nil =>
      have := (List.cons.inj h).1
      exact absurd (this ▸ List.mem_cons_self _ _ : '/' ∈ x :: a') ha
    | cons y c' =>
      obtain ⟨h1, h2⟩ := List.cons.inj h
      obtain ⟨h3, h4⟩ := ih c' (fun hm => ha (List.mem_cons_of_mem _ hm))
        (fun hm => hc (List.mem_cons_of_mem _ hm)) h2
      exact ⟨by rw [h1, h3], h4⟩

theorem portKey_eq_iff (p q : Port) (hp : '/' ∉ p.Number) (hq : '/' ∉ q.Number) :
    portKey p = portKey q ↔ p.Number = q.Number ∧ p.Protocol = q.Protocol := by
  unfold portKey
  constructor
  · intro h
    exact split_at_slash _ _ _ _ hp hq (by simpa using h)
  · rintro ⟨h1, h2⟩
    rw [h1, h2]

theorem no_slash_of_digits (s : Str) (h : ∀ c ∈ s, isDigit c = true) : '/' ∉ s := by
  intro hm
  exact absurd (h _ hm) (by decide)
/-- What the merged map holds: keys without repetition, every entry is an input port
stored under its own key, and under each key lies the record chosen by the merge
steps. -/
theorem mergePorts_facts (scans : List NmapScan) :
    ((mergePorts scans).map Prod.fst).Nodup ∧
    (∀ e ∈ mergePorts scans,
      e.2 ∈ (scans.map (fun s => s.Ports)).flatten ∧ e.1 = portKey e.2) ∧
    (∀ k, mapGet (mergePorts scans) k
      = match (((scans.map (fun s => s.Ports)).flatten).filter
            (fun p => portKey p = k)).find? (fun p => decide (p.Version ≠ [])) with
        | some p => some p
        | none => (((scans.map (fun s => s.Ports)).flatten).filter
            (fun p => portKey p = k)).head?) := by
  rw [mergePorts_eq]
  refine ⟨foldl_mergeStep_nodup _ [] List.nodup_nil, ?_, ?_⟩
  · intro e he
    rcases mem_foldl_mergeStep _ [] e he with h | h
    · cases h
    · exact h
  · intro k
    rw [mapGet_foldl_mergeStep, ← foldl_pickRecord_none]
    rfl

theorem filter_key_eq (all : List Port) (r : Port)
    (hall : ∀ p ∈ all, '/' ∉ p.Number) (hr : '/' ∉ r.Number) :
    all.filter (fun p => portKey p = portKey r)
      = all.filter (fun p => p.Number = r.Number ∧ p.Protocol = r.Protocol) := by
  apply List.filter_congr
  intro p hp
  rw [decide_eq_decide]
  exact portKey_eq_iff p r (hall p hp) hr

theorem merge_two_versions (a b : Port) (s1 s2 : NmapScan)
    (hn : a.Number = b.Number) (hp : a.Protocol = b.Protocol)
    (ha : a.Version = []) (hb : b.Version ≠ [])
    (h1 : s1.Ports = [a]) (h2 : s2.Ports = [b]) :
    (mergePorts [s1, s2]).map Prod.snd = [b] ∧ (mergePorts [s2, s1]).map Prod.snd = [b] := by
  have hk : portKey a = portKey b := by unfold portKey; rw [hn, hp]
  constructor
  · simp only [mergePorts, List.foldl_cons, List.foldl_nil, h1, h2]
    have e1 : mergeStep [] a = [(portKey a, a)] := rfl
    rw [e1]
    unfold mergeStep
    simp only [mapGet, hk, if_true]
    rw [if_pos ⟨ha, hb⟩]
    simp only [mapSet, if_true, List.map_cons, List.map_nil]
  · simp only [mergePorts, List.foldl_cons, List.foldl_nil, h1, h2]
    have e1 : mergeStep [] b = [(portKey b, b)] := rfl
    rw [e1]
    unfold mergeStep
    simp only [mapGet, hk, if_true]
    rw [if_neg (fun h => hb h.1)]
    simp only [List.map_cons, List.map_nil]

/-- C13: for scans whose ports have decimal-digit numbers and protocol `TCP` or `UDP`,
the merged map holds exactly one record per (number, protocol) key of the input, and
it is the first input record with this key that has a non-empty version if there is
one, and otherwise the first input record with this key; merging a record without
version and a record with version for the same key keeps the versioned one,
whichever comes first. -/
theorem mergePorts_spec (scans : List NmapScan)
    (H : ∀ scan ∈ scans, ∀ p ∈ scan.Ports,
      (∀ c ∈ p.Number, isDigit c = true) ∧
      (p.Protocol = "TCP".toList ∨ p.Protocol = "UDP".toList)) :
    (((mergePorts scans).map Prod.snd).map (fun r => (r.Number, r.Protocol))).Nodup ∧
    (∀ number protocol : Str,
      (∃ r ∈ (mergePorts scans).map Prod.snd, r.Number = number ∧ r.Protocol = protocol) ↔
      (∃ p ∈ (scans.map (fun s => s.Ports)).flatten,
        p.Number = number ∧ p.Protocol = protocol)) ∧
    (∀ r ∈ (mergePorts scans).map Prod.snd,
      chosenRecord ((scans.map (fun s => s.Ports)).flatten) r.Number r.Protocol = some r) ∧
    (∀ (a b : Port) (s1 s2 : NmapScan), a.Number = b.Number → a.Protocol = b.Protocol →
      a.Version = [] → b.Version ≠ [] → s1.Ports = [a] → s2.Ports = [b] →
      (mergePorts [s1, s2]).map Prod.snd = [b] ∧
        (mergePorts [s2, s1]).map Prod.snd = [b]) := by
  obtain ⟨hn, hent, hget⟩ := mergePorts_facts scans
  have hall : ∀ p ∈ (scans.map (fun s => s.Ports)).flatten, '/' ∉ p.Number := by
    intro p hp
    obtain ⟨l, hl, hpl⟩ := List.mem_flatten.1 hp
    obtain ⟨scan, hs, rfl⟩ := List.mem_map.1 hl
    exact no_slash_of_digits _ (H scan hs p hpl).1
  have hval : ∀ r ∈ (mergePorts scans).map Prod.snd,
      r ∈ (scans.map (fun s => s.Ports)).flatten ∧
        mapGet (mergePorts scans) (portKey r) = some r := by
    intro r hr
    obtain ⟨e, he, rfl⟩ := List.mem_map.1 hr
    obtain ⟨h1, h2⟩ := hent e he
    refine ⟨h1, ?_⟩
    rw [← h2]
    exact mem_mapGet _ _ _ hn he
  refine ⟨?_, ?_, ?_, fun a b s1 s2 => merge_two_versions a b s1 s2⟩
  · have hk : (mergePorts scans).map Prod.fst
        = (((mergePorts scans).map Prod.snd).map (fun r => (r.Number, r.Protocol))).map
            (fun x => x.1 ++ "/".toList ++ x.2) := by
      rw [List.map_map, List.map_map]
      apply List.map_congr_left
      intro e he
      exact (hent e he).2
    rw [hk] at hn
    exact hn.of_map _
  · intro number protocol
    constructor
    · rintro ⟨r, hr, h1, h2⟩
      exact ⟨r, (hval r hr).1, h1, h2⟩
    · rintro ⟨p, hp, h1, h2⟩
      have hne : ((scans.map (fun s => s.Ports)).flatten).filter
          (fun q => portKey q = portKey p) ≠ [] :=
        List.ne_nil_of_mem (List.mem_filter.2 ⟨hp, by simp⟩)
      obtain ⟨r, hr⟩ := chosen_isSome _ hne
      have hmem := chosen_mem _ r hr
      have hg : mapGet (mergePorts scans) (portKey p) = some r := by
        rw [hget]; exact hr
      have hrall := (List.mem_filter.1 hmem).1
      have hkey : portKey r = portKey p := by simpa using (List.mem_filter.1 hmem).2
      obtain ⟨e1, e2⟩ := (portKey_eq_iff r p (hall r hrall) (hall p hp)).1 hkey
      exact ⟨r, List.mem_map.2 ⟨(portKey p, r), mapGet_some_mem _ _ _ hg, rfl⟩,
        e1.trans h1, e2.trans h2⟩
  · intro r hr
    obtain ⟨hrall, hg⟩ := hval r hr
    unfold chosenRecord
    rw [← filter_key_eq _ r hall (hall r hrall), ← hget]
    exact hg

theorem mergePorts_spec_witness :
    (mergePorts [⟨[], [], [], [⟨"80".toList, "TCP".toList, "open".toList, "http".toList, []⟩]⟩,
        ⟨[], [], [], [⟨"80".toList, "TCP".toList, "open".toList, "http".toList,
          "Apache 2.4".toList⟩]⟩]).map Prod.snd
      = [⟨"80".toList, "TCP".toList, "open".toList, "http".toList, "Apache 2.4".toList⟩] ∧
    (mergePorts [⟨[], [], [], [⟨"80".toList, "TCP".toList, "open".toList, "http".toList,
          "Apache 2.4".toList⟩]⟩,
        ⟨[], [], [], [⟨"80".toList, "TCP".toList, "open".toList, "http".toList, []⟩]⟩]).map
        Prod.snd
      = [⟨"80".toList, "TCP".toList, "open".toList, "http".toList, "Apache 2.4".toList⟩] ∧
    chosenRecord
      [⟨"80".toList, "TCP".toList, "open".toList, "http".toList, []⟩,
        ⟨"80".toList, "TCP".toList, "open".toList, "http".toList, "Apache 2.4".toList⟩]
      "80".toList "TCP".toList
      = some ⟨"80".toList, "TCP".toList, "open".toList, "http".toList, "Apache 2.4".toList⟩ :=
  ⟨by decide, by decide,
    (mergePorts_spec
      [⟨[], [], [], [⟨"80".toList, "TCP".toList, "open".toList, "http".toList, []⟩]⟩,
        ⟨[], [], [], [⟨"80".toList, "TCP".toList, "open".toList, "http".toList,
          "Apache 2.4".toList⟩]⟩]
      (by decide)).2.2.1
      ⟨"80".toList, "TCP".toList, "open".toList, "http".toList, "Apache 2.4".toList⟩
      (by decide)⟩

end N2M
